import Mathlib

/-!
Verification of the payload-transformation core of `copilot-lmstudio-proxy`
(`src/main.rs`), a reverse proxy that patches JSON request/response bodies and
Server-Sent-Events chunks in flight.

Modelling conventions:
* `serde_json::Value` is embedded as the inductive `Proxy.Json`.  Objects are
  insertion-ordered association lists (mirroring the map used by
  `serde_json`); `insert` of a fresh key appends, `insert` of a present key
  replaces the value in place.  JSON numbers are modelled as `Int`
  (the payloads manipulated by this program are integer token counts;
  floating-point literals are treated as unparseable by the model and are not
  relied upon by any theorem).
* Request/response bodies are modelled as Unicode text (`String`); streaming
  chunks, which can legitimately be invalid UTF-8, are modelled as raw byte
  lists (`List Nat`) with an explicit UTF-8 codec.
* The orchestrator (`proxy_handler`) performs I/O; it is embedded as a pure
  function over an oracle record carrying the outcome of each transport
  effect (inbound body read, upstream send, upstream body read), together
  with an explicit count of upstream attempts.
-/

namespace Proxy

/-- Shallow embedding of `serde_json::Value` (numbers restricted to `Int`). -/
inductive Json where
  | null : Json
  | bool (b : Bool) : Json
  | num (n : Int) : Json
  | str (s : String) : Json
  | arr (xs : List Json) : Json
  | obj (kvs : List (String × Json)) : Json

/-- First-occurrence lookup in an object's member list (map semantics of
`serde_json::Map::get`). -/
def lookupKey (k : String) : List (String × Json) → Option Json
  | [] => none
  | (k', v) :: rest => if k' = k then some v else lookupKey k rest

/-- Replace the value bound to `k` (first occurrence) or append the binding,
mirroring `serde_json::Map::insert`. -/
def setKey (k : String) (v : Json) : List (String × Json) → List (String × Json)
  | [] => [(k, v)]
  | (k', v') :: rest => if k' = k then (k', v) :: rest else (k', v') :: setKey k v rest

/-- `Value::get(key)`: `some` only on objects that contain the key. -/
def Json.get : Json → String → Option Json
  | .obj kvs, k => lookupKey k kvs
  | _, _ => none

/-- `Value::is_object()`. -/
def Json.isObj : Json → Bool
  | .obj _ => true
  | _ => false

/-- The schema completion applied to one resolved `parameters` value
(`fix_request_body`, inner `if parameters.is_object()` block): if it is an
object lacking `"type"`, insert `type = "object"` and, when `"properties"` is
also absent, `properties = {}`. -/
def patchParams : Json → Json
  | .obj kvs =>
    if (lookupKey "type" kvs).isSome then .obj kvs
    else
      if (lookupKey "properties" kvs).isSome then
        .obj (kvs ++ [("type", Json.str "object")])
      else
        .obj (kvs ++ [("type", Json.str "object"), ("properties", Json.obj [])])
  | v => v

/-- Patch the `"parameters"` binding of a container (`get_mut("parameters")`
followed by the object fix); non-objects and containers without the key are
untouched. -/
def patchParamsAt (c : Json) : Json :=
  match c with
  | .obj kvs =>
    match lookupKey "parameters" kvs with
    | some p => .obj (setKey "parameters" (patchParams p) kvs)
    | none => .obj kvs
  | _ => c

/-- One iteration of the `for tool in tools` loop of `fix_request_body`:
resolve `tool.function.parameters` when the tool has a `"function"` key,
otherwise `tool.parameters`, and apply the schema completion there. -/
def patchTool (t : Json) : Json :=
  match t with
  | .obj kvs =>
    match lookupKey "function" kvs with
    | some f => .obj (setKey "function" (patchParamsAt f) kvs)
    | none => patchParamsAt (.obj kvs)
  | _ => t

/-- The parameter resolution of `fix_request_body` (nested form first, flat
form only when no `"function"` key exists). -/
def resolveParams (t : Json) : Option Json :=
  match t.get "function" with
  | some f => f.get "parameters"
  | none => t.get "parameters"

/-- Document-level transform of `fix_request_body`: map the tool fix over a
top-level `"tools"` array, leave every other document unchanged. -/
def patchRequest (v : Json) : Json :=
  match v with
  | .obj kvs =>
    match lookupKey "tools" kvs with
    | some (.arr ts) => .obj (setKey "tools" (.arr (ts.map patchTool)) kvs)
    | _ => .obj kvs
  | _ => v

/-- The usage completion shared by `fix_response_body` and
`fix_streaming_chunk`: insert the two token-detail defaults when absent,
reporting whether anything was inserted. -/
def patchUsage (kvs : List (String × Json)) : List (String × Json) × Bool :=
  let s1 :=
    if (lookupKey "input_tokens_details" kvs).isSome then (kvs, false)
    else (kvs ++ [("input_tokens_details", Json.obj [("cached_tokens", Json.num 0)])], true)
  let s2 :=
    if (lookupKey "output_tokens_details" s1.1).isSome then (s1.1, false)
    else (s1.1 ++ [("output_tokens_details", Json.obj [("reasoning_tokens", Json.num 0)])], true)
  (s2.1, s1.2 || s2.2)

/-- Document-level transform of `fix_response_body`: complete an object-typed
top-level `"usage"`, leave every other document unchanged. -/
def patchResponse (v : Json) : Json :=
  match v with
  | .obj kvs =>
    match lookupKey "usage" kvs with
    | some (.obj ukvs) => .obj (setKey "usage" (.obj (patchUsage ukvs).1) kvs)
    | _ => .obj kvs
  | _ => v

/-- The JSON-patching step of `fix_streaming_chunk`: complete an object-typed
`response.usage`, returning the document plus the `fixed` flag. -/
def patchStreamJson (v : Json) : Json × Bool :=
  match v with
  | .obj kvs =>
    match lookupKey "response" kvs with
    | some (.obj rkvs) =>
      match lookupKey "usage" rkvs with
      | some (.obj ukvs) =>
        let u := patchUsage ukvs
        (.obj (setKey "response" (.obj (setKey "usage" (.obj u.1) rkvs)) kvs), u.2)
      | _ => (.obj kvs, false)
    | _ => (.obj kvs, false)
  | _ => (v, false)

/-! ### Serialization (compact form of `serde_json::to_string` / `to_vec`) -/

/-- Lower-case hex digit, as emitted by `serde_json`'s string escaper
(`48 = '0'`, `97 = 'a'`). -/
def hexDigitChar (n : Nat) : Char :=
  if n < 10 then Char.ofNat (48 + n) else Char.ofNat (97 + (n - 10))

/-- Escape one character of a JSON string the way `serde_json` does: quote and
backslash get two-character escapes, the five named control characters get
their short escapes, the remaining control characters become `\u00xx`, and
everything else is emitted verbatim. -/
def escChar (c : Char) : List Char :=
  if c = '"' then ['\\', '"']
  else if c = '\\' then ['\\', '\\']
  else if c.toNat < 0x20 then
    if c = '\x08' then ['\\', 'b']
    else if c = '\t' then ['\\', 't']
    else if c = '\n' then ['\\', 'n']
    else if c = '\x0c' then ['\\', 'f']
    else if c = '\r' then ['\\', 'r']
    else ['\\', 'u', '0', '0', hexDigitChar (c.toNat / 16), hexDigitChar (c.toNat % 16)]
  else [c]

/-- Escape a character list. -/
def escList : List Char → List Char
  | [] => []
  | c :: cs => escChar c ++ escList cs

/-- Serialize a JSON string (quotes plus escaped content). -/
def serStr (s : String) : List Char :=
  '"' :: (escList s.data ++ ['"'])

/-- Decimal digits of a natural number (fuelled helper). -/
def natCharsAux : Nat → Nat → List Char → List Char
  | 0, _, acc => acc
  | fuel + 1, n, acc =>
    if n < 10 then Char.ofNat (48 + n) :: acc
    else natCharsAux fuel (n / 10) (Char.ofNat (48 + n % 10) :: acc)

/-- Decimal representation of a natural number. -/
def natChars (n : Nat) : List Char := natCharsAux (n + 1) n []

/-- Decimal representation of an integer (canonical: no leading zeros, and no
sign on zero), matching `serde_json`'s integer formatting. -/
def intChars : Int → List Char
  | .ofNat n => natChars n
  | .negSucc n => '-' :: natChars (n + 1)

mutual

/-- Compact serialization of a JSON value (`serde_json::to_string`). -/
def serJson : Json → List Char
  | .null => ['n', 'u', 'l', 'l']
  | .bool b => if b then ['t', 'r', 'u', 'e'] else ['f', 'a', 'l', 's', 'e']
  | .num i => intChars i
  | .str s => serStr s
  | .arr [] => ['[', ']']
  | .arr (x :: rest) => '[' :: (serJson x ++ serElemsTail rest ++ [']'])
  | .obj [] => ['{', '}']
  | .obj ((k, v) :: rest) =>
      '{' :: (serStr k ++ ':' :: serJson v ++ serMembersTail rest ++ ['}'])

/-- Comma-separated serialization of the tail of an array. -/
def serElemsTail : List Json → List Char
  | [] => []
  | x :: rest => ',' :: (serJson x ++ serElemsTail rest)

/-- Comma-separated serialization of the tail of an object. -/
def serMembersTail : List (String × Json) → List Char
  | [] => []
  | (k, v) :: rest => ',' :: (serStr k ++ ':' :: serJson v ++ serMembersTail rest)

end

/-- Serialization to a `String` body. -/
def serToString (v : Json) : String := String.mk (serJson v)

/-! ### Parsing (`serde_json::from_str`).  The model parses the JSON grammar
with objects built by repeated map insertion (duplicate keys: last value wins,
first position kept) and whitespace per the JSON spec.  Sole modelled
restriction: number literals continued by a fraction or exponent are rejected
instead of being read as floating point. -/

/-- JSON insignificant whitespace (space, tab, line feed, carriage return). -/
def isWsChar (c : Char) : Bool := c = ' ' || c = '\t' || c = '\n' || c = '\r'

/-- Drop leading JSON whitespace. -/
def skipWs : List Char → List Char
  | [] => []
  | c :: cs => if isWsChar c then skipWs cs else c :: cs

/-- Value of one hex digit (either case). -/
def hexVal (c : Char) : Option Nat :=
  if '0' ≤ c ∧ c ≤ '9' then some (c.toNat - 48)
  else if 'a' ≤ c ∧ c ≤ 'f' then some (c.toNat - 97 + 10)
  else if 'A' ≤ c ∧ c ≤ 'F' then some (c.toNat - 65 + 10)
  else none

/-- Value of a four-digit hex escape body. -/
def hex4 (a b c d : Char) : Option Nat :=
  match hexVal a, hexVal b, hexVal c, hexVal d with
  | some x, some y, some z, some w => some (((x * 16 + y) * 16 + z) * 16 + w)
  | _, _, _, _ => none

/-- Single-character string escapes accepted by JSON. -/
def unescChar (c : Char) : Option Char :=
  if c = '"' then some '"'
  else if c = '\\' then some '\\'
  else if c = '/' then some '/'
  else if c = 'b' then some '\x08'
  else if c = 'f' then some '\x0c'
  else if c = 'n' then some '\n'
  else if c = 'r' then some '\r'
  else if c = 't' then some '\t'
  else none

mutual

/-- Parse the body of a JSON string after the opening quote (fuelled; every
recursion step consumes input, so `2 * length + 2` rounds always suffice),
returning the decoded characters and the remainder after the closing quote.
Unescaped control characters and lone surrogates are rejected, as in
`serde_json`. -/
def parseStrAux : Nat → List Char → Option (List Char × List Char)
  | 0, _ => none
  | fuel + 1, cs =>
    match cs with
    | [] => none
    | c :: rest =>
      if c = '"' then some ([], rest)
      else if c = '\\' then parseEscape fuel rest
      else if c.toNat < 0x20 then none
      else
        match parseStrAux fuel rest with
        | some (s, r) => some (c :: s, r)
        | none => none

/-- Parse what follows a backslash inside a JSON string. -/
def parseEscape : Nat → List Char → Option (List Char × List Char)
  | 0, _ => none
  | fuel + 1, rest =>
    match rest with
    | [] => none
    | e :: rest2 =>
      if e = 'u' then
        match rest2 with
        | a :: b :: cc :: d :: rest3 =>
          match hex4 a b cc d with
          | none => none
          | some n =>
            if 0xD800 ≤ n ∧ n < 0xDC00 then parseSurrogate fuel n rest3
            else if 0xDC00 ≤ n ∧ n < 0xE000 then none
            else
              match parseStrAux fuel rest3 with
              | some (s, r) => some (Char.ofNat n :: s, r)
              | none => none
        | _ => none
      else
        match unescChar e with
        | some c2 =>
          match parseStrAux fuel rest2 with
          | some (s, r) => some (c2 :: s, r)
          | none => none
        | none => none

/-- Parse the low half of a surrogate pair after a high surrogate `n`. -/
def parseSurrogate : Nat → Nat → List Char → Option (List Char × List Char)
  | 0, _, _ => none
  | fuel + 1, n, cs =>
    match cs with
    | e1 :: e2 :: a2 :: b2 :: c2 :: d2 :: rest4 =>
      if e1 = '\\' ∧ e2 = 'u' then
        match hex4 a2 b2 c2 d2 with
        | some m =>
          if 0xDC00 ≤ m ∧ m < 0xE000 then
            match parseStrAux fuel rest4 with
            | some (s, r) =>
                some (Char.ofNat (0x10000 + (n - 0xD800) * 0x400 + (m - 0xDC00)) :: s, r)
            | none => none
          else none
        | none => none
      else none
    | _ => none

end

/-- Parse a JSON string body with always-sufficient fuel. -/
def parseStr (cs : List Char) : Option (List Char × List Char) :=
  parseStrAux (2 * cs.length + 2) cs

/-- Numeric value of a list of decimal digits (`48 = '0'`). -/
def digitsVal (ds : List Char) : Nat :=
  ds.foldl (fun a c => a * 10 + (c.toNat - 48)) 0

/-- Parse an unsigned JSON integer literal (non-empty digits, no leading
zeros; a following `.`/`e`/`E` is rejected by the integral model). -/
def parseNumCore (cs : List Char) : Option (Nat × List Char) :=
  match cs with
  | [] => none
  | c :: _ =>
    if c.isDigit then
      if c = '0' ∧ 1 < (cs.takeWhile Char.isDigit).length then none
      else
        match cs.dropWhile Char.isDigit with
        | r1 :: _ =>
          if r1 = '.' ∨ r1 = 'e' ∨ r1 = 'E' then none
          else some (digitsVal (cs.takeWhile Char.isDigit), cs.dropWhile Char.isDigit)
        | [] => some (digitsVal (cs.takeWhile Char.isDigit), [])
    else none

/-- Parse a JSON number literal (optional sign, then integer body). -/
def parseNum (cs : List Char) : Option (Json × List Char) :=
  match cs with
  | [] => none
  | c :: r =>
    if c = '-' then
      match parseNumCore r with
      | some (n, rest) => some (.num (-(n : Int)), rest)
      | none => none
    else
      match parseNumCore (c :: r) with
      | some (n, rest) => some (.num (n : Int), rest)
      | none => none

/-- Remove every binding of `k`. -/
def eraseKey (k : String) : List (String × Json) → List (String × Json)
  | [] => []
  | (k', v) :: rest => if k' = k then eraseKey k rest else (k', v) :: eraseKey k rest

/-- Prepend member `(k, v)` to the map of the members parsed after it,
with `serde_json`'s duplicate-key semantics (last value wins, first position
kept). -/
def addMember (k : String) (v : Json) (tail : List (String × Json)) :
    List (String × Json) :=
  match lookupKey k tail with
  | some v' => (k, v') :: eraseKey k tail
  | none => (k, v) :: tail

mutual

/-- Parse one JSON value (fuelled recursion; leading whitespace allowed),
returning the value and the unconsumed remainder. -/
def parseVal : Nat → List Char → Option (Json × List Char)
  | 0, _ => none
  | fuel + 1, cs =>
    match skipWs cs with
    | [] => none
    | c :: rest =>
      if c = 'n' then
        match rest with
        | c1 :: c2 :: c3 :: r =>
          if c1 = 'u' ∧ c2 = 'l' ∧ c3 = 'l' then some (.null, r) else none
        | _ => none
      else if c = 't' then
        match rest with
        | c1 :: c2 :: c3 :: r =>
          if c1 = 'r' ∧ c2 = 'u' ∧ c3 = 'e' then some (.bool true, r) else none
        | _ => none
      else if c = 'f' then
        match rest with
        | c1 :: c2 :: c3 :: c4 :: r =>
          if c1 = 'a' ∧ c2 = 'l' ∧ c3 = 's' ∧ c4 = 'e' then some (.bool false, r)
          else none
        | _ => none
      else if c = '"' then
        match parseStr rest with
        | some (s, r) => some (.str (String.mk s), r)
        | none => none
      else if c = '[' then
        match skipWs rest with
        | [] => none
        | c2 :: r2 =>
          if c2 = ']' then some (.arr [], r2)
          else
            match parseElems fuel (c2 :: r2) with
            | some (vs, r) => some (.arr vs, r)
            | none => none
      else if c = '{' then
        match skipWs rest with
        | [] => none
        | c2 :: r2 =>
          if c2 = '}' then some (.obj [], r2)
          else
            match parseMembers fuel (c2 :: r2) with
            | some (kvs, r) => some (.obj kvs, r)
            | none => none
      else parseNum (c :: rest)

/-- Parse the non-empty element list of an array up to and including `]`. -/
def parseElems : Nat → List Char → Option (List Json × List Char)
  | 0, _ => none
  | fuel + 1, cs =>
    match parseVal fuel cs with
    | some (v, r) =>
      (match skipWs r with
       | [] => none
       | c2 :: r2 =>
         if c2 = ',' then
           match parseElems fuel r2 with
           | some (vs, r3) => some (v :: vs, r3)
           | none => none
         else if c2 = ']' then some ([v], r2)
         else none)
    | none => none

/-- Parse the non-empty member list of an object up to and including `}`. -/
def parseMembers : Nat → List Char → Option (List (String × Json) × List Char)
  | 0, _ => none
  | fuel + 1, cs =>
    match skipWs cs with
    | [] => none
    | c0 :: r0 =>
      if c0 = '"' then
        match parseStr r0 with
        | some (kcs, r1) =>
          (match skipWs r1 with
           | [] => none
           | c1 :: r2 =>
             if c1 = ':' then
               match parseVal fuel r2 with
               | some (v, r3) =>
                 (match skipWs r3 with
                  | [] => none
                  | c3 :: r4 =>
                    if c3 = ',' then
                      match parseMembers fuel r4 with
                      | some (kvs, r5) => some (addMember (String.mk kcs) v kvs, r5)
                      | none => none
                    else if c3 = '}' then some ([(String.mk kcs, v)], r4)
                    else none)
               | none => none
             else none)
        | none => none
      else none

end

/-- Parse a complete JSON document from characters: one value, then only
whitespace to the end of input. -/
def parseJsonChars (cs : List Char) : Option Json :=
  match parseVal (cs.length + 1) cs with
  | some (v, rest) => if skipWs rest = [] then some v else none
  | none => none

/-- Parse a complete JSON document from a text body. -/
def parseJson (s : String) : Option Json := parseJsonChars s.data

/-- A remainder that cannot extend a preceding number literal (its head, if
any, is not a digit and not a fraction or exponent marker). -/
def numSafe (l : List Char) : Prop :=
  ∀ r rs, l = r :: rs → r.isDigit = false ∧ r ≠ '.' ∧ r ≠ 'e' ∧ r ≠ 'E'

/-! ### Byte-level wrappers around the JSON transforms -/

/-- `fix_request_body`: parse the body, apply the tool-schema completion, and
re-serialize; `none` models the `Err` that makes the caller fall back to the
original bytes. -/
def fixRequestBody (s : String) : Option String :=
  (parseJson s).map (fun v => serToString (patchRequest v))

/-- `fix_response_body`: parse the body, apply the usage completion, and
re-serialize. -/
def fixResponseBody (s : String) : Option String :=
  (parseJson s).map (fun v => serToString (patchResponse v))

/-! ### UTF-8 codec (streaming chunks are raw bytes) -/

/-- UTF-8 continuation byte. -/
def isContByte (b : Nat) : Bool := 0x80 ≤ b && b < 0xC0

/-- Strict UTF-8 decoding (`std::str::from_utf8`): rejects continuation-byte
starts, overlong encodings, surrogates, and code points above `0x10FFFF`. -/
def utf8Decode (bs : List Nat) : Option (List Char) :=
  match bs with
  | [] => some []
  | b :: rest =>
    if b < 0x80 then
      match utf8Decode rest with
      | some cs => some (Char.ofNat b :: cs)
      | none => none
    else if b < 0xC2 then none
    else if b < 0xE0 then
      match rest with
      | b2 :: rest2 =>
        if isContByte b2 then
          match utf8Decode rest2 with
          | some cs => some (Char.ofNat ((b - 0xC0) * 0x40 + (b2 - 0x80)) :: cs)
          | none => none
        else none
      | [] => none
    else if b < 0xF0 then
      match rest with
      | b2 :: b3 :: rest2 =>
        if isContByte b2 && isContByte b3 then
          let n := (b - 0xE0) * 0x1000 + (b2 - 0x80) * 0x40 + (b3 - 0x80)
          if n < 0x800 ∨ (0xD800 ≤ n ∧ n < 0xE000) then none
          else
            match utf8Decode rest2 with
            | some cs => some (Char.ofNat n :: cs)
            | none => none
        else none
      | _ => none
    else if b < 0xF5 then
      match rest with
      | b2 :: b3 :: b4 :: rest2 =>
        if isContByte b2 && isContByte b3 && isContByte b4 then
          let n := (b - 0xF0) * 0x40000 + (b2 - 0x80) * 0x1000
                     + (b3 - 0x80) * 0x40 + (b4 - 0x80)
          if n < 0x10000 ∨ 0x110000 ≤ n then none
          else
            match utf8Decode rest2 with
            | some cs => some (Char.ofNat n :: cs)
            | none => none
        else none
      | _ => none
    else none

/-- UTF-8 encoding of one code point. -/
def utf8EncodeChar (c : Char) : List Nat :=
  let n := c.toNat
  if n < 0x80 then [n]
  else if n < 0x800 then [0xC0 + n / 0x40, 0x80 + n % 0x40]
  else if n < 0x10000 then
    [0xE0 + n / 0x1000, 0x80 + (n / 0x40) % 0x40, 0x80 + n % 0x40]
  else
    [0xF0 + n / 0x40000, 0x80 + (n / 0x1000) % 0x40, 0x80 + (n / 0x40) % 0x40,
     0x80 + n % 0x40]

/-- UTF-8 encoding of a text (`String::into_bytes` / `format!` output). -/
def utf8Encode (s : String) : List Nat :=
  s.data.foldr (fun c acc => utf8EncodeChar c ++ acc) []

/-! ### The SSE chunk filter (`fix_streaming_chunk`) -/

/-- Fuelled helper for `dropMatches` (each successful strip removes at least
one character, so `cs.length + 1` rounds of fuel always suffice). -/
def dropMatchesAux : Nat → List Char → List Char → List Char
  | 0, _, cs => cs
  | fuel + 1, pat, cs =>
    if pat ≠ [] ∧ pat.isPrefixOf cs then dropMatchesAux fuel pat (cs.drop pat.length)
    else cs

/-- Rust `str::trim_start_matches`: repeatedly remove the pattern while it
leads the text. -/
def dropMatches (pat : List Char) (cs : List Char) : List Char :=
  dropMatchesAux (cs.length + 1) pat cs

/-- ASCII fragment of Rust `str::trim` (the chunks at issue carry only ASCII
whitespace). -/
def trimChars (cs : List Char) : List Char :=
  ((cs.dropWhile isWsChar).reverse.dropWhile isWsChar).reverse

/-- `fix_streaming_chunk`: decode the chunk (`none` models the propagated
UTF-8 `Err`), pass non-`data: ` frames and `[DONE]` through, patch
`response.usage` of a parseable payload, and re-frame only when something was
inserted. -/
def fixStreamingChunk (chunk : List Nat) : Option (List Nat) :=
  match utf8Decode chunk with
  | none => none
  | some cs =>
    if ¬ ("data: ".data.isPrefixOf cs) then some chunk
    else
      let dataLine := trimChars (dropMatches "data: ".data cs)
      if dataLine = "[DONE]".data then some chunk
      else
        match parseJsonChars dataLine with
        | none => some chunk
        | some j =>
          let p := patchStreamJson j
          if p.2 then
            some (utf8Encode (String.mk ("data: ".data ++ serJson p.1 ++ "\n\n".data)))
          else some chunk

/-- The per-chunk mapping of `proxy_handler`'s streaming branch: an `Err`
from the filter falls back to the original chunk. -/
def deliveredChunk (chunk : List Nat) : List Nat :=
  (fixStreamingChunk chunk).getD chunk

/-! ### Headers and the orchestrator -/

/-- The skip test of the request-header copy loop in `proxy_handler`
(header names arrive lowercased from the `http` crate). -/
def skipRequestHeader (name : String) : Bool :=
  name = "host" || "sec-".data.isPrefixOf name.data || name = "connection"
    || name = "accept-encoding" || name = "content-length"

/-- The headers forwarded upstream, in order, with names and values intact. -/
def forwardHeaders (hs : List (String × String)) : List (String × String) :=
  hs.filter (fun h => !skipRequestHeader h.1)

/-- `sanitize_response_headers`: drop the three encoding/length headers. -/
def sanitizeResponseHeaders (hs : List (String × String)) : List (String × String) :=
  hs.filter (fun h =>
    !(h.1 = "content-encoding" || h.1 = "transfer-encoding" || h.1 = "content-length"))

/-- Substring test over character lists (Rust `str::contains`). -/
def containsSeq (needle hay : List Char) : Bool :=
  needle.isPrefixOf hay ||
    match hay with
    | [] => false
    | _ :: t => containsSeq needle t

/-- First value of a header, if present (`HeaderMap::get`). -/
def headerValue (hs : List (String × String)) (k : String) : Option String :=
  (hs.find? (fun h => h.1 = k)).map (fun h => h.2)

/-- `is_json_request` / `is_json_response`: content-type contains
`application/json`. -/
def isJsonContentType (hs : List (String × String)) : Bool :=
  match headerValue hs "content-type" with
  | some v => containsSeq "application/json".data v.data
  | none => false

/-- Streaming test of `proxy_handler`: content-type contains
`text/event-stream`. -/
def isStreamingContentType (hs : List (String × String)) : Bool :=
  match headerValue hs "content-type" with
  | some v => containsSeq "text/event-stream".data v.data
  | none => false

/-- Outcome of the upstream call, as observed by `proxy_handler`: status,
headers, and the result of reading the response body (`none` = read error;
only consulted on the non-streaming path). -/
structure UpstreamReply where
  status : Nat
  headers : List (String × String)
  bodyRead : Option String

/-- The body emitted downstream by the orchestrator. -/
inductive OutBody where
  | buffered (b : String) : OutBody
  | stream : OutBody

/-- A client-facing response (success side of `proxy_handler`). -/
structure OutResponse where
  status : Nat
  headers : List (String × String)
  body : OutBody

/-- The body forwarded upstream: patched only when non-empty and the inbound
content-type contains `application/json`, falling back to the original bytes
when the fix fails. -/
def sentBody (reqHeaders : List (String × String)) (body : String) : String :=
  if body ≠ "" ∧ isJsonContentType reqHeaders then (fixRequestBody body).getD body
  else body

/-- Shallow embedding of `proxy_handler`'s control flow.  The transport
effects are passed in as oracles: `bodyRead` is the result of collecting the
inbound body (`none` = read failure); `upstream` maps the forwarded request
(filtered headers plus possibly-patched body) to the result of the single
`send().await` (`none` = connection/send failure).  The second component of
the result counts how many times the upstream was contacted. -/
def proxyHandler (reqHeaders : List (String × String)) (bodyRead : Option String)
    (upstream : List (String × String) → String → Option UpstreamReply) :
    Except Nat OutResponse × Nat :=
  match bodyRead with
  | none => (.error 400, 0)
  | some body =>
    match upstream (forwardHeaders reqHeaders) (sentBody reqHeaders body) with
    | none => (.error 502, 1)
    | some up =>
      let hs := sanitizeResponseHeaders up.headers
      if isStreamingContentType up.headers then
        (.ok ⟨up.status, hs, .stream⟩, 1)
      else
        match up.bodyRead with
        | none => (.error 502, 1)
        | some b =>
          let outBody :=
            if isJsonContentType hs then (fixResponseBody b).getD b else b
          (.ok ⟨up.status, hs, .buffered outBody⟩, 1)

/-! ### Auxiliary notions used by the verification -/

/-- Lookup along a key path. -/
def getPath : Json → List String → Option Json
  | v, [] => some v
  | v, k :: ks =>
    match v.get k with
    | some w => getPath w ks
    | none => none

/-- `SubJson a b`: `b` arises from `a` by only inserting keys that `a` does
not have — atoms coincide, arrays correspond element-wise, and every binding
of an object of `a` is present in `b` with a `SubJson`-related value.  This
is the claim's "purely additive" relation on the JSON tree. -/
def SubJson (a b : Json) : Prop :=
  match a, b with
  | .null, .null => True
  | .bool x, .bool y => x = y
  | .num x, .num y => x = y
  | .str x, .str y => x = y
  | .arr xs, .arr ys =>
      xs.length = ys.length ∧
      ∀ (i : Nat) (hx : i < xs.length) (hy : i < ys.length), SubJson xs[i] ys[i]
  | .obj xs, .obj ys =>
      ∀ k v, lookupKey k xs = some v → ∃ w, lookupKey k ys = some w ∧ SubJson v w
  | _, _ => False
termination_by sizeOf a
decreasing_by
  · have := List.sizeOf_lt_of_mem (List.getElem_mem hx)
    simp only [Json.arr.sizeOf_spec]
    omega
  · have hl : lookupKey k xs = some v := by assumption
    have hbound : ∀ (l : List (String × Json)), lookupKey k l = some v → sizeOf v < sizeOf l := by
      intro l
      induction l with
      | nil => intro h; simp [lookupKey] at h
      | cons kv rest ih =>
        obtain ⟨k0, v0⟩ := kv
        intro h
        by_cases h0 : k0 = k
        · simp only [lookupKey, if_pos h0, Option.some.injEq] at h
          subst h
          simp [Prod.mk.sizeOf_spec]
          omega
        · simp only [lookupKey, if_neg h0] at h
          have := ih h
          simp
          omega
    have := hbound xs hl
    simp only [Json.obj.sizeOf_spec]
    omega

/-- Key lists without duplicates (the shape `serde_json` maps always have). -/
def noDupKeys : List (String × Json) → Bool
  | [] => true
  | (k, _) :: rest => (lookupKey k rest).isNone && noDupKeys rest

mutual

/-- A canonical document: every object in the tree is duplicate-free.  Every
document produced by the parser is canonical. -/
def canonJson : Json → Bool
  | .null => true
  | .bool _ => true
  | .num _ => true
  | .str _ => true
  | .arr xs => canonElems xs
  | .obj kvs => noDupKeys kvs && canonMembers kvs

/-- Canonicity of an array's elements. -/
def canonElems : List Json → Bool
  | [] => true
  | x :: xs => canonJson x && canonElems xs

/-- Canonicity of the values of an object's members. -/
def canonMembers : List (String × Json) → Bool
  | [] => true
  | (_, v) :: rest => canonJson v && canonMembers rest

end

mutual

/-- Fuel sufficient for `parseVal` to parse the serialization of a value. -/
def needV : Json → Nat
  | .null => 1
  | .bool _ => 1
  | .num _ => 1
  | .str _ => 1
  | .arr [] => 1
  | .arr (x :: xs) => needE (x :: xs) + 1
  | .obj [] => 1
  | .obj (kv :: kvs) => needM (kv :: kvs) + 1

/-- Fuel sufficient for `parseElems` on a serialized element list. -/
def needE : List Json → Nat
  | [] => 1
  | x :: xs => max (needV x) (needE xs) + 1

/-- Fuel sufficient for `parseMembers` on a serialized member list. -/
def needM : List (String × Json) → Nat
  | [] => 1
  | (_, v) :: kvs => max (needV v) (needM kvs) + 1

end

/-- The condition under which the tool loop of `fix_request_body` mutates a
tool: its resolved `parameters` is an object without `type`. -/
def needsFix (t : Json) : Bool :=
  match resolveParams t with
  | some p => p.isObj && (p.get "type").isNone
  | none => false

/-- Shape-absence premise of C3 for `patch_request`: there is no tools array,
or no tool entry needs fixing. -/
def RequestNoFix (v : Json) : Prop :=
  ∀ ts, v.get "tools" = some (.arr ts) → ∀ t ∈ ts, needsFix t = false

/-- Shape-absence premise of C3 for `patch_response`: there is no object-typed
`usage`, or both detail fields are already present. -/
def ResponseNoFix (v : Json) : Prop :=
  ∀ ukvs, v.get "usage" = some (.obj ukvs) →
    (lookupKey "input_tokens_details" ukvs).isSome ∧
    (lookupKey "output_tokens_details" ukvs).isSome

/-! ### Association-list lemmas -/

/-- Membership from a successful lookup. -/
theorem lookupKey_mem (k : String) (v : Json) (kvs : List (String × Json))
    (h : lookupKey k kvs = some v) : (k, v) ∈ kvs := by
  induction kvs with
  | nil => simp [lookupKey] at h
  | cons kv rest ih =>
    obtain ⟨k0, v0⟩ := kv
    by_cases h0 : k0 = k
    · subst h0
      simp [lookupKey] at h
      simp [h]
    · simp [lookupKey, h0] at h
      simp [ih h]

theorem lookup_setKey_self (k : String) (v : Json) (kvs : List (String × Json)) :
    lookupKey k (setKey k v kvs) = some v := by
  induction kvs with
  | nil => simp [setKey, lookupKey]
  | cons kv rest ih =>
    obtain ⟨k', v'⟩ := kv
    by_cases h : k' = k <;> simp [setKey, lookupKey, h, ih]

theorem lookup_setKey_ne (k k' : String) (v : Json) (kvs : List (String × Json))
    (h : k' ≠ k) : lookupKey k' (setKey k v kvs) = lookupKey k' kvs := by
  induction kvs with
  | nil => simp [setKey, lookupKey, Ne.symm h]
  | cons kv rest ih =>
    obtain ⟨k0, v0⟩ := kv
    by_cases h0 : k0 = k
    · subst h0
      simp [setKey, lookupKey, Ne.symm h]
    · by_cases h1 : k0 = k' <;> simp [setKey, lookupKey, h0, h1, h, ih]

theorem setKey_lookup_eq (k : String) (v : Json) (kvs : List (String × Json))
    (h : lookupKey k kvs = some v) : setKey k v kvs = kvs := by
  induction kvs with
  | nil => simp [lookupKey] at h
  | cons kv rest ih =>
    obtain ⟨k0, v0⟩ := kv
    by_cases h0 : k0 = k
    · simp [lookupKey, h0] at h
      simp [setKey, h0, h]
    · simp [lookupKey, h0] at h
      simp [setKey, h0, ih h]

theorem setKey_setKey (k : String) (v v' : Json) (kvs : List (String × Json)) :
    setKey k v' (setKey k v kvs) = setKey k v' kvs := by
  induction kvs with
  | nil => simp [setKey]
  | cons kv rest ih =>
    obtain ⟨k0, v0⟩ := kv
    by_cases h0 : k0 = k <;> simp [setKey, h0, ih]

theorem lookup_append (k : String) (a b : List (String × Json)) :
    lookupKey k (a ++ b) =
      match lookupKey k a with
      | some v => some v
      | none => lookupKey k b := by
  induction a with
  | nil => simp [lookupKey]
  | cons kv rest ih =>
    obtain ⟨k0, v0⟩ := kv
    by_cases h0 : k0 = k <;> simp [lookupKey, h0, ih]

/-! ### Lemmas about the request patch -/

theorem patchParams_get_type (kvs : List (String × Json))
    (h : lookupKey "type" kvs = none) :
    (patchParams (.obj kvs)).get "type" = some (.str "object") := by
  by_cases hp : (lookupKey "properties" kvs).isSome <;>
    simp [patchParams, h, hp, Json.get, lookup_append, lookupKey]

theorem patchParams_get_props (kvs : List (String × Json))
    (h : lookupKey "type" kvs = none) :
    (patchParams (.obj kvs)).get "properties" =
      some ((lookupKey "properties" kvs).getD (.obj [])) := by
  rcases hp : lookupKey "properties" kvs with _ | q <;>
    simp [patchParams, h, hp, Json.get, lookup_append, lookupKey]

theorem patchParams_preserves (kvs : List (String × Json)) (k : String) (v : Json)
    (h : lookupKey k kvs = some v) :
    (patchParams (.obj kvs)).get k = some v := by
  by_cases ht : (lookupKey "type" kvs).isSome <;>
    by_cases hp : (lookupKey "properties" kvs).isSome <;>
      simp [patchParams, ht, hp, Json.get, lookup_append, h]

theorem patchParams_id_of_type (p : Json) (h : (p.get "type").isSome) :
    patchParams p = p := by
  cases p <;> simp_all [patchParams, Json.get]

theorem patchParams_id_of_nonobj (p : Json) (h : p.isObj = false) :
    patchParams p = p := by
  cases p <;> simp_all [patchParams, Json.isObj]

theorem resolveParams_some_obj (t : Json) (p : Json)
    (h : resolveParams t = some p) : t.isObj = true := by
  cases t <;> simp_all [resolveParams, Json.get, Json.isObj]

theorem resolveParams_patchTool (t p : Json) (h : resolveParams t = some p) :
    resolveParams (patchTool t) = some (patchParams p) := by
  cases t with
  | obj kvs =>
    rcases hf : lookupKey "function" kvs with _ | f
    · have hp : lookupKey "parameters" kvs = some p := by
        simpa [resolveParams, Json.get, hf] using h
      simp only [patchTool, hf, patchParamsAt, hp]
      have hfun : lookupKey "function" (setKey "parameters" (patchParams p) kvs) = none := by
        rw [lookup_setKey_ne _ _ _ _ (by decide)]; exact hf
      simp [resolveParams, Json.get, hfun, lookup_setKey_self]
    · cases f with
      | obj fkvs =>
        have hp : lookupKey "parameters" fkvs = some p := by
          simpa [resolveParams, Json.get, hf] using h
        simp [patchTool, hf, resolveParams, Json.get, lookup_setKey_self,
          patchParamsAt, hp]
      | null => simp_all [resolveParams, Json.get, hf]
      | bool b => simp_all [resolveParams, Json.get, hf]
      | num n => simp_all [resolveParams, Json.get, hf]
      | str s => simp_all [resolveParams, Json.get, hf]
      | arr xs => simp_all [resolveParams, Json.get, hf]
  | null => simp_all [resolveParams, Json.get]
  | bool b => simp_all [resolveParams, Json.get]
  | num n => simp_all [resolveParams, Json.get]
  | str s => simp_all [resolveParams, Json.get]
  | arr xs => simp_all [resolveParams, Json.get]

theorem patchParamsAt_id (c : Json)
    (h : ∀ p, c.get "parameters" = some p → patchParams p = p) :
    patchParamsAt c = c := by
  cases c with
  | obj kvs =>
    rcases hp : lookupKey "parameters" kvs with _ | p
    · simp [patchParamsAt, hp]
    · have := h p (by simpa [Json.get] using hp)
      simp [patchParamsAt, hp, this, setKey_lookup_eq _ _ _ hp]
  | null => simp [patchParamsAt]
  | bool b => simp [patchParamsAt]
  | num n => simp [patchParamsAt]
  | str s => simp [patchParamsAt]
  | arr xs => simp [patchParamsAt]

theorem patchTool_id (t : Json)
    (h : ∀ p, resolveParams t = some p → patchParams p = p) :
    patchTool t = t := by
  cases t with
  | obj kvs =>
    rcases hf : lookupKey "function" kvs with _ | f
    · have : patchParamsAt (.obj kvs) = .obj kvs := by
        apply patchParamsAt_id
        intro p hp
        apply h p
        simp only [resolveParams, Json.get, hf]
        simpa [Json.get] using hp
      simp [patchTool, hf, this]
    · have : patchParamsAt f = f := by
        apply patchParamsAt_id
        intro p hp
        apply h p
        simp only [resolveParams, Json.get, hf]
        exact hp
      simp [patchTool, hf, this, setKey_lookup_eq _ _ _ hf]
  | null => simp [patchTool]
  | bool b => simp [patchTool]
  | num n => simp [patchTool]
  | str s => simp [patchTool]
  | arr xs => simp [patchTool]

theorem patchRequest_get_tools (v : Json) (ts : List Json)
    (h : v.get "tools" = some (.arr ts)) :
    (patchRequest v).get "tools" = some (.arr (ts.map patchTool)) := by
  cases v with
  | obj kvs =>
    have h' : lookupKey "tools" kvs = some (.arr ts) := by simpa [Json.get] using h
    simp [patchRequest, h', Json.get, lookup_setKey_self]
  | null => simp [Json.get] at h
  | bool b => simp [Json.get] at h
  | num n => simp [Json.get] at h
  | str s => simp [Json.get] at h
  | arr xs => simp [Json.get] at h

/-- C1 (amended: when a pre-existing `properties` value is not an object it is
kept as is, so `properties` ends up *present* but not necessarily bound to an
object).  After `patch_request`, the `tools` array is the element-wise tool
fix, and for every tool whose resolved `parameters` (nested
`function.parameters` when a `function` key exists, flat `parameters`
otherwise) is an object lacking `type`: the patched tool resolves to the
completed schema, which carries `type = "object"` and a `properties` key
bound to the pre-existing value, or to `{}` when `properties` was absent;
non-object parameters and parameters already carrying `type` leave the tool
untouched. -/
theorem patchRequest_completes_tool_schemas (v : Json) (ts : List Json)
    (h : v.get "tools" = some (.arr ts)) :
    (patchRequest v).get "tools" = some (.arr (ts.map patchTool)) ∧
    ∀ t ∈ ts, ∀ p, resolveParams t = some p →
      ((p.isObj = true → p.get "type" = none →
          resolveParams (patchTool t) = some (patchParams p) ∧
          (patchParams p).get "type" = some (.str "object") ∧
          (patchParams p).get "properties" = some ((p.get "properties").getD (.obj []))) ∧
       ((p.isObj = false ∨ (p.get "type").isSome) → patchTool t = t)) := by
  refine ⟨patchRequest_get_tools v ts h, ?_⟩
  intro t _ p hp
  constructor
  · intro hobj hty
    refine ⟨resolveParams_patchTool t p hp, ?_, ?_⟩
    · cases p with
      | obj kvs => exact patchParams_get_type kvs (by simpa [Json.get] using hty)
      | null => simp [Json.isObj] at hobj
      | bool b => simp [Json.isObj] at hobj
      | num n => simp [Json.isObj] at hobj
      | str s => simp [Json.isObj] at hobj
      | arr xs => simp [Json.isObj] at hobj
    · cases p with
      | obj kvs =>
        have := patchParams_get_props kvs (by simpa [Json.get] using hty)
        simpa [Json.get] using this
      | null => simp [Json.isObj] at hobj
      | bool b => simp [Json.isObj] at hobj
      | num n => simp [Json.isObj] at hobj
      | str s => simp [Json.isObj] at hobj
      | arr xs => simp [Json.isObj] at hobj
  · intro hcase
    apply patchTool_id
    intro p' hp'
    rw [hp] at hp'
    cases hp'
    rcases hcase with hno | hty
    · exact patchParams_id_of_nonobj p hno
    · exact patchParams_id_of_type p hty

/-- C1 counterexample: in the document
`{"tools": [{"parameters": {"properties": 5}}]}` the single tool's resolved
`parameters` is an object lacking `type`, yet after `patch_request` its
`properties` key is still bound to the number `5` — not to an object as the
claim states. -/
theorem patchRequest_properties_nonobject_cex :
    resolveParams (Json.obj [("parameters", Json.obj [("properties", Json.num 5)])])
      = some (Json.obj [("properties", Json.num 5)]) ∧
    (Json.obj [("properties", Json.num 5)]).isObj = true ∧
    (Json.obj [("properties", Json.num 5)]).get "type" = none ∧
    patchRequest
        (Json.obj [("tools",
          Json.arr [Json.obj [("parameters", Json.obj [("properties", Json.num 5)])]])])
      = Json.obj [("tools",
          Json.arr [Json.obj [("parameters",
            Json.obj [("properties", Json.num 5), ("type", Json.str "object")])]])] ∧
    (Json.obj [("properties", Json.num 5), ("type", Json.str "object")]).get "properties"
      = some (Json.num 5) ∧
    (Json.num 5).isObj = false :=
  ⟨rfl, rfl, rfl, rfl, rfl, rfl⟩

/-- Witness for C1 at the document `{"tools": [{"function": {"parameters": {}}}]}`. -/
theorem patchRequest_completes_tool_schemas_witness :
    (patchRequest (Json.obj [("tools",
        Json.arr [Json.obj [("function", Json.obj [("parameters", Json.obj [])])]])])).get "tools"
      = some (.arr ([Json.obj [("function", Json.obj [("parameters", Json.obj [])])]].map patchTool)) ∧
    resolveParams (patchTool (Json.obj [("function", Json.obj [("parameters", Json.obj [])])]))
      = some (patchParams (Json.obj [])) ∧
    (patchParams (Json.obj [])).get "type" = some (.str "object") ∧
    (patchParams (Json.obj [])).get "properties"
      = some (((Json.obj ([] : List (String × Json))).get "properties").getD (.obj [])) := by
  have h := patchRequest_completes_tool_schemas
    (Json.obj [("tools",
      Json.arr [Json.obj [("function", Json.obj [("parameters", Json.obj [])])]])])
    [Json.obj [("function", Json.obj [("parameters", Json.obj [])])]] rfl
  have h2 := (h.2 (Json.obj [("function", Json.obj [("parameters", Json.obj [])])])
    (by simp) (Json.obj []) rfl).1 rfl rfl
  exact ⟨h.1, h2.1, h2.2.1, h2.2.2⟩

/-! ### Idempotence lemmas -/

theorem patchParams_idem (p : Json) : patchParams (patchParams p) = patchParams p := by
  cases p with
  | obj kvs =>
    rcases ht : lookupKey "type" kvs with _ | q
    · apply patchParams_id_of_type
      rw [patchParams_get_type kvs ht]
      simp
    · apply patchParams_id_of_type
      have : (Json.obj kvs).get "type" = some q := by simpa [Json.get] using ht
      simp [patchParams_id_of_type (Json.obj kvs) (by simp [this]), Json.get, ht]
  | null => simp [patchParams]
  | bool b => simp [patchParams]
  | num n => simp [patchParams]
  | str s => simp [patchParams]
  | arr xs => simp [patchParams]

theorem patchTool_idem (t : Json) : patchTool (patchTool t) = patchTool t := by
  rcases hr : resolveParams t with _ | p
  · have ht : patchTool t = t := patchTool_id t (by intro p hp; rw [hr] at hp; cases hp)
    rw [ht, ht]
  · apply patchTool_id
    intro p' hp'
    rw [resolveParams_patchTool t p hr] at hp'
    cases hp'
    exact patchParams_idem p

theorem patchRequest_idem (v : Json) : patchRequest (patchRequest v) = patchRequest v := by
  cases v with
  | obj kvs =>
    rcases ht : lookupKey "tools" kvs with _ | w
    · simp [patchRequest, ht]
    · cases w with
      | arr ts =>
        have h1 : lookupKey "tools" (setKey "tools" (Json.arr (ts.map patchTool)) kvs)
            = some (Json.arr (ts.map patchTool)) := lookup_setKey_self _ _ _
        simp only [patchRequest, ht, h1]
        rw [setKey_setKey]
        have : (ts.map patchTool).map patchTool = ts.map patchTool := by
          rw [List.map_map]
          apply List.map_congr_left
          intro t _
          exact patchTool_idem t
        rw [this]
      | null => simp [patchRequest, ht]
      | bool b => simp [patchRequest, ht]
      | num n => simp [patchRequest, ht]
      | str s => simp [patchRequest, ht]
      | obj o => simp [patchRequest, ht]
  | null => simp [patchRequest]
  | bool b => simp [patchRequest]
  | num n => simp [patchRequest]
  | str s => simp [patchRequest]
  | arr xs => simp [patchRequest]

theorem patchUsage_lookup_input (kvs : List (String × Json)) :
    (lookupKey "input_tokens_details" (patchUsage kvs).1).isSome := by
  rcases h1 : lookupKey "input_tokens_details" kvs with _ | v <;>
    rcases h2 : lookupKey "output_tokens_details" kvs with _ | w <;>
      simp [patchUsage, h1, h2, lookup_append, lookupKey]

theorem patchUsage_lookup_output (kvs : List (String × Json)) :
    (lookupKey "output_tokens_details" (patchUsage kvs).1).isSome := by
  rcases h1 : lookupKey "input_tokens_details" kvs with _ | v <;>
    rcases h2 : lookupKey "output_tokens_details" kvs with _ | w <;>
      simp [patchUsage, h1, h2, lookup_append, lookupKey]

theorem patchUsage_of_present (kvs : List (String × Json))
    (h1 : (lookupKey "input_tokens_details" kvs).isSome)
    (h2 : (lookupKey "output_tokens_details" kvs).isSome) :
    patchUsage kvs = (kvs, false) := by
  simp [patchUsage, h1, h2]

theorem patchUsage_idem (kvs : List (String × Json)) :
    patchUsage (patchUsage kvs).1 = ((patchUsage kvs).1, false) :=
  patchUsage_of_present _ (patchUsage_lookup_input kvs) (patchUsage_lookup_output kvs)

theorem patchResponse_idem (v : Json) : patchResponse (patchResponse v) = patchResponse v := by
  cases v with
  | obj kvs =>
    rcases hu : lookupKey "usage" kvs with _ | w
    · simp [patchResponse, hu]
    · cases w with
      | obj ukvs =>
        have h1 : lookupKey "usage" (setKey "usage" (Json.obj (patchUsage ukvs).1) kvs)
            = some (Json.obj (patchUsage ukvs).1) := lookup_setKey_self _ _ _
        simp only [patchResponse, hu, h1]
        rw [setKey_setKey, (patchUsage_idem ukvs)]
      | null => simp [patchResponse, hu]
      | bool b => simp [patchResponse, hu]
      | num n => simp [patchResponse, hu]
      | str s => simp [patchResponse, hu]
      | arr xs => simp [patchResponse, hu]
  | null => simp [patchResponse]
  | bool b => simp [patchResponse]
  | num n => simp [patchResponse]
  | str s => simp [patchResponse]
  | arr xs => simp [patchResponse]

/-! ### Identity on documents that need no fixing -/

theorem patchTool_of_noFix (t : Json) (h : needsFix t = false) : patchTool t = t := by
  apply patchTool_id
  intro p hp
  rcases hobj : p.isObj with _ | _
  · exact patchParams_id_of_nonobj p hobj
  · apply patchParams_id_of_type
    rcases hty : p.get "type" with _ | q
    · simp [needsFix, hp, hobj, hty] at h
    · simp

theorem patchRequest_id_of_noFix (v : Json) (h : RequestNoFix v) : patchRequest v = v := by
  cases v with
  | obj kvs =>
    rcases ht : lookupKey "tools" kvs with _ | w
    · simp [patchRequest, ht]
    · cases w with
      | arr ts =>
        have hmap : ts.map patchTool = ts := by
          conv_rhs => rw [← List.map_id ts]
          apply List.map_congr_left
          intro t hm
          exact patchTool_of_noFix t (h ts (by simpa [Json.get] using ht) t hm)
        simp only [patchRequest, ht, hmap]
        rw [setKey_lookup_eq _ _ _ ht]
      | null => simp [patchRequest, ht]
      | bool b => simp [patchRequest, ht]
      | num n => simp [patchRequest, ht]
      | str s => simp [patchRequest, ht]
      | obj o => simp [patchRequest, ht]
  | null => simp [patchRequest]
  | bool b => simp [patchRequest]
  | num n => simp [patchRequest]
  | str s => simp [patchRequest]
  | arr xs => simp [patchRequest]

theorem patchResponse_id_of_noFix (v : Json) (h : ResponseNoFix v) : patchResponse v = v := by
  cases v with
  | obj kvs =>
    rcases hu : lookupKey "usage" kvs with _ | w
    · simp [patchResponse, hu]
    · cases w with
      | obj ukvs =>
        have hpair := h ukvs (by simpa [Json.get] using hu)
        simp only [patchResponse, hu, patchUsage_of_present ukvs hpair.1 hpair.2]
        rw [setKey_lookup_eq _ _ _ hu]
      | null => simp [patchResponse, hu]
      | bool b => simp [patchResponse, hu]
      | num n => simp [patchResponse, hu]
      | str s => simp [patchResponse, hu]
      | arr xs => simp [patchResponse, hu]
  | null => simp [patchResponse]
  | bool b => simp [patchResponse]
  | num n => simp [patchResponse]
  | str s => simp [patchResponse]
  | arr xs => simp [patchResponse]

/-- C3 (amended): on a document in which the expected shape is absent the
transforms leave the parsed JSON document unchanged, and the output bytes are
the re-serialization of that unchanged document — which may differ from the
input bytes in insignificant formatting (the functions re-serialize
unconditionally), so byte-for-byte identity does not hold in general. -/
theorem fixBody_id_document_of_shape_absent (s : String) (v : Json)
    (hparse : parseJson s = some v) :
    (RequestNoFix v → patchRequest v = v ∧ fixRequestBody s = some (serToString v)) ∧
    (ResponseNoFix v → patchResponse v = v ∧ fixResponseBody s = some (serToString v)) := by
  constructor
  · intro h
    have hid := patchRequest_id_of_noFix v h
    exact ⟨hid, by simp [fixRequestBody, hparse, hid]⟩
  · intro h
    have hid := patchResponse_id_of_noFix v h
    exact ⟨hid, by simp [fixResponseBody, hparse, hid]⟩

/-- C3 counterexample: the body `"{ }"` contains no `tools` array and no
`usage` object, yet both fixers return `"{}"`, which differs from the input
bytes. -/
theorem fixBody_not_byte_identity_cex :
    parseJson "\x7b \x7d" = some (Json.obj []) ∧
    (Json.obj ([] : List (String × Json))).get "tools" = none ∧
    (Json.obj ([] : List (String × Json))).get "usage" = none ∧
    fixRequestBody "\x7b \x7d" = some "\x7b\x7d" ∧
    fixResponseBody "\x7b \x7d" = some "\x7b\x7d" ∧
    ("\x7b\x7d" : String) ≠ "\x7b \x7d" :=
  ⟨rfl, rfl, rfl, rfl, rfl, by decide⟩

/-- Witness for C3 (amended) at the body `"{ }"`. -/
theorem fixBody_id_document_witness :
    (patchRequest (Json.obj []) = Json.obj [] ∧
      fixRequestBody "\x7b \x7d" = some (serToString (Json.obj []))) ∧
    (patchResponse (Json.obj []) = Json.obj [] ∧
      fixResponseBody "\x7b \x7d" = some (serToString (Json.obj []))) := by
  have h := fixBody_id_document_of_shape_absent "\x7b \x7d" (Json.obj []) rfl
  refine ⟨h.1 ?_, h.2 ?_⟩
  · intro ts hts
    simp [Json.get, lookupKey] at hts
  · intro ukvs hu
    simp [Json.get, lookupKey] at hu

/-! ### Additivity (C5) -/

/-- Size-based induction principle for the nested inductive `Json`. -/
theorem Json.inductionOn (P : Json → Prop)
    (hnull : P .null) (hbool : ∀ b, P (.bool b)) (hnum : ∀ n, P (.num n))
    (hstr : ∀ s, P (.str s))
    (harr : ∀ xs, (∀ x ∈ xs, P x) → P (.arr xs))
    (hobj : ∀ kvs, (∀ kv ∈ kvs, P kv.2) → P (.obj kvs)) :
    ∀ v, P v
  | .null => hnull
  | .bool b => hbool b
  | .num n => hnum n
  | .str s => hstr s
  | .arr xs => harr xs (fun x hx =>
      have : sizeOf x < 1 + sizeOf xs := by
        have := List.sizeOf_lt_of_mem hx
        omega
      Json.inductionOn P hnull hbool hnum hstr harr hobj x)
  | .obj kvs => hobj kvs (fun kv hkv =>
      have : sizeOf kv.2 < 1 + sizeOf kvs := by
        have h1 := List.sizeOf_lt_of_mem hkv
        cases kv with
        | mk k v' => simp only [Prod.mk.sizeOf_spec] at h1 ⊢; omega
      Json.inductionOn P hnull hbool hnum hstr harr hobj kv.2)
termination_by v => sizeOf v

theorem subJson_refl : ∀ v, SubJson v v := by
  intro v
  induction v using Json.inductionOn with
  | hnull => simp [SubJson]
  | hbool b => simp [SubJson]
  | hnum n => simp [SubJson]
  | hstr s => simp [SubJson]
  | harr xs ih =>
    simp only [SubJson]
    refine ⟨by simp, fun i hx _ => ih _ (List.getElem_mem hx)⟩
  | hobj kvs ih =>
    simp only [SubJson]
    exact fun k v hl => ⟨v, hl, ih (k, v) (lookupKey_mem k v kvs hl)⟩

theorem subJson_obj_append (kvs extra : List (String × Json)) :
    SubJson (.obj kvs) (.obj (kvs ++ extra)) := by
  simp only [SubJson]
  intro k v hl
  refine ⟨v, ?_, subJson_refl v⟩
  rw [lookup_append, hl]

theorem subJson_obj_setKey (k : String) (v w : Json) (kvs : List (String × Json))
    (hl : lookupKey k kvs = some v) (hsub : SubJson v w) :
    SubJson (.obj kvs) (.obj (setKey k w kvs)) := by
  simp only [SubJson]
  intro k' v' hl'
  by_cases hk : k' = k
  · subst hk
    rw [hl] at hl'
    cases hl'
    exact ⟨w, lookup_setKey_self _ _ _, hsub⟩
  · exact ⟨v', by rw [lookup_setKey_ne _ _ _ _ hk]; exact hl', subJson_refl v'⟩

theorem subJson_patchParams (p : Json) : SubJson p (patchParams p) := by
  cases p with
  | obj kvs =>
    by_cases ht : (lookupKey "type" kvs).isSome
    · simp only [patchParams, ht, if_true]
      exact subJson_refl _
    · by_cases hp : (lookupKey "properties" kvs).isSome <;>
        simp only [patchParams, ht, hp, if_true, if_false, Bool.false_eq_true] <;>
        exact subJson_obj_append _ _
  | null => exact subJson_refl _
  | bool b => exact subJson_refl _
  | num n => exact subJson_refl _
  | str s => exact subJson_refl _
  | arr xs => exact subJson_refl _

theorem subJson_patchParamsAt (c : Json) : SubJson c (patchParamsAt c) := by
  cases c with
  | obj kvs =>
    rcases hp : lookupKey "parameters" kvs with _ | p
    · simp only [patchParamsAt, hp]
      exact subJson_refl _
    · simp only [patchParamsAt, hp]
      exact subJson_obj_setKey _ _ _ _ hp (subJson_patchParams p)
  | null => exact subJson_refl _
  | bool b => exact subJson_refl _
  | num n => exact subJson_refl _
  | str s => exact subJson_refl _
  | arr xs => exact subJson_refl _

theorem subJson_patchTool (t : Json) : SubJson t (patchTool t) := by
  cases t with
  | obj kvs =>
    rcases hf : lookupKey "function" kvs with _ | f
    · simp only [patchTool, hf]
      exact subJson_patchParamsAt _
    · simp only [patchTool, hf]
      exact subJson_obj_setKey _ _ _ _ hf (subJson_patchParamsAt f)
  | null => exact subJson_refl _
  | bool b => exact subJson_refl _
  | num n => exact subJson_refl _
  | str s => exact subJson_refl _
  | arr xs => exact subJson_refl _

theorem subJson_patchUsage (kvs : List (String × Json)) :
    SubJson (.obj kvs) (.obj (patchUsage kvs).1) := by
  rcases h1 : lookupKey "input_tokens_details" kvs with _ | v <;>
    rcases h2 : lookupKey "output_tokens_details" kvs with _ | w <;>
      simp only [patchUsage, h1, h2, lookup_append, lookupKey, Option.isSome_none,
        Option.isSome_some, if_true, if_false, Bool.false_eq_true] <;>
      first
        | simpa using subJson_refl (Json.obj kvs)
        | exact subJson_obj_append _ _
        | (rw [List.append_assoc] ; exact subJson_obj_append _ _)

theorem subJson_patchResponse (v : Json) : SubJson v (patchResponse v) := by
  cases v with
  | obj kvs =>
    rcases hu : lookupKey "usage" kvs with _ | w
    · simp only [patchResponse, hu]
      exact subJson_refl _
    · cases w with
      | obj ukvs =>
        simp only [patchResponse, hu]
        exact subJson_obj_setKey _ _ _ _ hu (subJson_patchUsage ukvs)
      | null => simp only [patchResponse, hu]; exact subJson_refl _
      | bool b => simp only [patchResponse, hu]; exact subJson_refl _
      | num n => simp only [patchResponse, hu]; exact subJson_refl _
      | str s => simp only [patchResponse, hu]; exact subJson_refl _
      | arr xs => simp only [patchResponse, hu]; exact subJson_refl _
  | null => exact subJson_refl _
  | bool b => exact subJson_refl _
  | num n => exact subJson_refl _
  | str s => exact subJson_refl _
  | arr xs => exact subJson_refl _

theorem subJson_arr_map (f : Json → Json) (xs : List Json)
    (h : ∀ x, SubJson x (f x)) : SubJson (.arr xs) (.arr (xs.map f)) := by
  simp only [SubJson]
  refine ⟨(List.length_map xs f).symm, fun i hx hy => ?_⟩
  rw [List.getElem_map]
  exact h _

theorem subJson_patchRequest (v : Json) : SubJson v (patchRequest v) := by
  cases v with
  | obj kvs =>
    rcases ht : lookupKey "tools" kvs with _ | w
    · simp only [patchRequest, ht]
      exact subJson_refl _
    · cases w with
      | arr ts =>
        simp only [patchRequest, ht]
        exact subJson_obj_setKey _ _ _ _ ht
          (subJson_arr_map patchTool ts subJson_patchTool)
      | null => simp only [patchRequest, ht]; exact subJson_refl _
      | bool b => simp only [patchRequest, ht]; exact subJson_refl _
      | num n => simp only [patchRequest, ht]; exact subJson_refl _
      | str s => simp only [patchRequest, ht]; exact subJson_refl _
      | obj o => simp only [patchRequest, ht]; exact subJson_refl _
  | null => exact subJson_refl _
  | bool b => exact subJson_refl _
  | num n => exact subJson_refl _
  | str s => exact subJson_refl _
  | arr xs => exact subJson_refl _

theorem subJson_patchStreamJson (v : Json) : SubJson v (patchStreamJson v).1 := by
  cases v with
  | obj kvs =>
    rcases hr : lookupKey "response" kvs with _ | w
    · simp only [patchStreamJson, hr]
      exact subJson_refl _
    · cases w with
      | obj rkvs =>
        rcases hu : lookupKey "usage" rkvs with _ | u
        · simp only [patchStreamJson, hr, hu]
          exact subJson_refl _
        · cases u with
          | obj ukvs =>
            simp only [patchStreamJson, hr, hu]
            exact subJson_obj_setKey _ _ _ _ hr
              (subJson_obj_setKey _ _ _ _ hu (subJson_patchUsage ukvs))
          | null => simp only [patchStreamJson, hr, hu]; exact subJson_refl _
          | bool b => simp only [patchStreamJson, hr, hu]; exact subJson_refl _
          | num n => simp only [patchStreamJson, hr, hu]; exact subJson_refl _
          | str s => simp only [patchStreamJson, hr, hu]; exact subJson_refl _
          | arr xs => simp only [patchStreamJson, hr, hu]; exact subJson_refl _
      | null => simp only [patchStreamJson, hr]; exact subJson_refl _
      | bool b => simp only [patchStreamJson, hr]; exact subJson_refl _
      | num n => simp only [patchStreamJson, hr]; exact subJson_refl _
      | str s => simp only [patchStreamJson, hr]; exact subJson_refl _
      | arr xs => simp only [patchStreamJson, hr]; exact subJson_refl _
  | null => exact subJson_refl _
  | bool b => exact subJson_refl _
  | num n => exact subJson_refl _
  | str s => exact subJson_refl _
  | arr xs => exact subJson_refl _

/-- C5: all three JSON transforms are purely additive on the JSON tree —
the output extends the input only by inserting keys absent from the input
(`SubJson`); no existing key is removed or overwritten, atoms are preserved,
and arrays keep their length and element correspondence. -/
theorem transforms_are_additive (v : Json) :
    SubJson v (patchRequest v) ∧ SubJson v (patchResponse v) ∧
    SubJson v (patchStreamJson v).1 :=
  ⟨subJson_patchRequest v, subJson_patchResponse v, subJson_patchStreamJson v⟩

/-! ### Streaming chunk claims -/

/-- C7: the `[DONE]` sentinel chunk is returned byte-for-byte unchanged by
`fix_streaming_chunk` (and hence delivered unchanged). -/
theorem filterChunk_done_unchanged :
    fixStreamingChunk (utf8Encode "data: [DONE]\n\n")
      = some (utf8Encode "data: [DONE]\n\n") ∧
    deliveredChunk (utf8Encode "data: [DONE]\n\n") = utf8Encode "data: [DONE]\n\n" :=
  ⟨rfl, rfl⟩

/-- C2: on the chunk `data: {"response":{"usage":{}}}\n\n` the filter returns
a `data: ` frame terminated by `\n\n` whose JSON payload's `response.usage`
carries `input_tokens_details = {"cached_tokens": 0}` and
`output_tokens_details = {"reasoning_tokens": 0}`. -/
theorem filterChunk_usage_completion :
    ∃ (payload : String) (j : Json),
      fixStreamingChunk (utf8Encode "data: \x7b\"response\":\x7b\"usage\":\x7b\x7d\x7d\x7d\n\n")
        = some (utf8Encode ("data: " ++ payload ++ "\n\n")) ∧
      parseJson payload = some j ∧
      getPath j ["response", "usage", "input_tokens_details"]
        = some (.obj [("cached_tokens", .num 0)]) ∧
      getPath j ["response", "usage", "output_tokens_details"]
        = some (.obj [("reasoning_tokens", .num 0)]) := by
  refine ⟨"\x7b\"response\":\x7b\"usage\":\x7b\"input_tokens_details\":\x7b\"cached_tokens\":0\x7d,\"output_tokens_details\":\x7b\"reasoning_tokens\":0\x7d\x7d\x7d\x7d",
    Json.obj [("response", Json.obj [("usage", Json.obj
      [("input_tokens_details", Json.obj [("cached_tokens", Json.num 0)]),
       ("output_tokens_details", Json.obj [("reasoning_tokens", Json.num 0)])])])],
    rfl, rfl, rfl, rfl⟩

/-- C10: a decodable chunk whose text starts with `data:` but not with the
six-character `data: ` (no space) is passed through unchanged — the filter
only touches chunks with the exact `data: ` lead. -/
theorem filterChunk_requires_space (chunk : List Nat) (cs : List Char)
    (hdec : utf8Decode chunk = some cs)
    (hpre : "data:".data.isPrefixOf cs = true)
    (hnospace : "data: ".data.isPrefixOf cs = false) :
    fixStreamingChunk chunk = some chunk ∧ deliveredChunk chunk = chunk := by
  have h1 : fixStreamingChunk chunk = some chunk := by
    simp [fixStreamingChunk, hdec, hnospace]
  exact ⟨h1, by simp [deliveredChunk, h1]⟩

/-- Witness for C10 at the chunk `data:{"response":{"usage":{}}}\n\n`. -/
theorem filterChunk_requires_space_witness :
    fixStreamingChunk (utf8Encode "data:\x7b\"response\":\x7b\"usage\":\x7b\x7d\x7d\x7d\n\n")
        = some (utf8Encode "data:\x7b\"response\":\x7b\"usage\":\x7b\x7d\x7d\x7d\n\n") ∧
    deliveredChunk (utf8Encode "data:\x7b\"response\":\x7b\"usage\":\x7b\x7d\x7d\x7d\n\n")
        = utf8Encode "data:\x7b\"response\":\x7b\"usage\":\x7b\x7d\x7d\x7d\n\n" :=
  filterChunk_requires_space _ ("data:\x7b\"response\":\x7b\"usage\":\x7b\x7d\x7d\x7d\n\n".data)
    rfl rfl rfl

/-- C8 (amended: the payload test follows the code, which strips *all*
leading `data: ` occurrences and trims whitespace before parsing): any chunk
that fails UTF-8 decoding, or lacks the `data: ` lead, or whose
fully-stripped and trimmed data line is not parseable JSON, is delivered
downstream byte-for-byte unchanged. -/
theorem filterChunk_fail_open (chunk : List Nat)
    (h : utf8Decode chunk = none ∨
      ∃ cs, utf8Decode chunk = some cs ∧
        ("data: ".data.isPrefixOf cs = false ∨
          parseJsonChars (trimChars (dropMatches "data: ".data cs)) = none)) :
    deliveredChunk chunk = chunk := by
  rcases h with hnone | ⟨cs, hdec, hcs⟩
  · simp [deliveredChunk, fixStreamingChunk, hnone]
  · rcases hcs with hnopre | hparse
    · simp [deliveredChunk, fixStreamingChunk, hdec, hnopre]
    · by_cases hpre : "data: ".data.isPrefixOf cs
      · by_cases hdone : trimChars (dropMatches "data: ".data cs) = "[DONE]".data <;>
          simp [deliveredChunk, fixStreamingChunk, hdec, hpre, hdone, hparse]
      · simp [deliveredChunk, fixStreamingChunk, hdec, hpre]

/-- C8 counterexample: the chunk `data: data: {"response":{"usage":{}}}\n\n`
has a payload after the prefix (`data: {"response":{"usage":{}}}\n\n`) that is
not parseable JSON, yet the filter patches and re-frames it — the delivered
bytes differ from the original (one `data: ` lead is even lost). -/
theorem filterChunk_fail_open_cex :
    parseJson "data: \x7b\"response\":\x7b\"usage\":\x7b\x7d\x7d\x7d\n\n" = none ∧
    parseJson (String.mk (trimChars
      "data: \x7b\"response\":\x7b\"usage\":\x7b\x7d\x7d\x7d\n\n".data)) = none ∧
    deliveredChunk (utf8Encode "data: data: \x7b\"response\":\x7b\"usage\":\x7b\x7d\x7d\x7d\n\n")
      = utf8Encode ("data: \x7b\"response\":\x7b\"usage\":\x7b\"input_tokens_details\":\x7b\"cached_tokens\":0\x7d,\"output_tokens_details\":\x7b\"reasoning_tokens\":0\x7d\x7d\x7d\x7d\n\n") ∧
    deliveredChunk (utf8Encode "data: data: \x7b\"response\":\x7b\"usage\":\x7b\x7d\x7d\x7d\n\n")
      ≠ utf8Encode "data: data: \x7b\"response\":\x7b\"usage\":\x7b\x7d\x7d\x7d\n\n" :=
  ⟨rfl, rfl, rfl, by decide⟩

/-- Witness for C8 (amended) at the undecodable single-byte chunk `0xFF`. -/
theorem filterChunk_fail_open_witness :
    deliveredChunk [0xFF] = [0xFF] :=
  filterChunk_fail_open [0xFF] (Or.inl rfl)

/-! ### Header forwarding (C4) and the orchestrator (C9) -/

/-- C4 (amended: the code additionally skips every header whose name starts
with `sec-`): an inbound request header whose lowercase name is none of
`host`, `connection`, `accept-encoding`, `content-length`,
`content-encoding`, `transfer-encoding` and does not start with `sec-` is
forwarded to the upstream request with name and value unchanged. -/
theorem request_headers_forwarded (hs : List (String × String)) (n v : String)
    (hmem : (n, v) ∈ hs)
    (hn : n ∉ ["host", "connection", "accept-encoding", "content-length",
      "content-encoding", "transfer-encoding"])
    (hsec : "sec-".data.isPrefixOf n.data = false) :
    (n, v) ∈ forwardHeaders hs := by
  simp only [List.mem_cons, List.not_mem_nil, or_false, not_or] at hn
  apply List.mem_filter.mpr
  refine ⟨hmem, ?_⟩
  simp [skipRequestHeader, hn.1, hn.2.1, hn.2.2.1, hn.2.2.2.1, hsec]

/-- C4 counterexample: `sec-fetch-mode` is not in the claim's exclusion list,
yet the code does not forward it. -/
theorem request_headers_forwarded_cex :
    ("sec-fetch-mode" ∉ ["host", "connection", "accept-encoding",
      "content-length", "content-encoding", "transfer-encoding"]) ∧
    forwardHeaders [("sec-fetch-mode", "cors")] = [] :=
  ⟨by decide, rfl⟩

/-- Witness for C4 (amended): `content-type` passes through. -/
theorem request_headers_forwarded_witness :
    ("content-type", "application/json") ∈
      forwardHeaders [("host", "example"), ("content-type", "application/json")] :=
  request_headers_forwarded _ "content-type" "application/json"
    (by simp) (by decide) rfl

/-- C9: failure-to-status mapping of the orchestrator — inbound body read
failure yields 400 before any upstream contact; upstream send failure yields
502; a non-streaming upstream body read failure yields 502; and on every
path the upstream is contacted at most once. -/
theorem proxyHandler_failure_semantics (reqHeaders : List (String × String))
    (bodyRead : Option String)
    (upstream : List (String × String) → String → Option UpstreamReply) :
    (proxyHandler reqHeaders bodyRead upstream).2 ≤ 1 ∧
    (bodyRead = none →
      proxyHandler reqHeaders bodyRead upstream = (.error 400, 0)) ∧
    (∀ body, bodyRead = some body →
      upstream (forwardHeaders reqHeaders) (sentBody reqHeaders body) = none →
      proxyHandler reqHeaders bodyRead upstream = (.error 502, 1)) ∧
    (∀ body up, bodyRead = some body →
      upstream (forwardHeaders reqHeaders) (sentBody reqHeaders body) = some up →
      isStreamingContentType up.headers = false →
      up.bodyRead = none →
      proxyHandler reqHeaders bodyRead upstream = (.error 502, 1)) := by
  refine ⟨?_, ?_, ?_, ?_⟩
  · rcases bodyRead with _ | body
    · simp [proxyHandler]
    · rcases hup : upstream (forwardHeaders reqHeaders) (sentBody reqHeaders body)
        with _ | up
      · simp [proxyHandler, hup]
      · by_cases hstream : isStreamingContentType up.headers
        · simp [proxyHandler, hup, hstream]
        · rcases hbr : up.bodyRead with _ | b <;>
            simp [proxyHandler, hup, hstream, hbr]
  · intro h
    subst h
    simp [proxyHandler]
  · intro body h hup
    subst h
    simp [proxyHandler, hup]
  · intro body up h hup hstream hbr
    subst h
    simp [proxyHandler, hup, hstream, hbr]

/-- Witness for C9: the three failure paths at concrete oracles. -/
theorem proxyHandler_failure_semantics_witness :
    proxyHandler [] none (fun _ _ => none) = (.error 400, 0) ∧
    proxyHandler [] (some "") (fun _ _ => none) = (.error 502, 1) ∧
    proxyHandler [] (some "") (fun _ _ => some ⟨200, [], none⟩) = (.error 502, 1) :=
  ⟨(proxyHandler_failure_semantics [] none (fun _ _ => none)).2.1 rfl,
   (proxyHandler_failure_semantics [] (some "") (fun _ _ => none)).2.2.1 "" rfl rfl,
   (proxyHandler_failure_semantics [] (some "") (fun _ _ => some ⟨200, [], none⟩)).2.2.2
     "" ⟨200, [], none⟩ rfl rfl rfl rfl⟩

/-! ### Digits and number literals (towards the parse/serialize roundtrip) -/

theorem isDigit_toNat (c : Char) : c.isDigit = true ↔ 48 ≤ c.toNat ∧ c.toNat ≤ 57 := by
  simp only [Char.isDigit, ge_iff_le, Bool.and_eq_true, decide_eq_true_eq,
    UInt32.le_def, BitVec.le_def, Char.toNat]
  exact Iff.rfl

theorem digitChar_isDigit (d : Nat) (h : d < 10) :
    (Char.ofNat (48 + d)).isDigit = true := by
  interval_cases d <;> decide

theorem digitChar_toNat (d : Nat) (h : d < 10) :
    (Char.ofNat (48 + d)).toNat = 48 + d := by
  interval_cases d <;> decide

theorem digitChar_ne_zero (d : Nat) (h1 : d < 10) (h2 : d ≠ 0) :
    Char.ofNat (48 + d) ≠ '0' := by
  interval_cases d <;> simp_all <;> decide

/-- A digit character is none of the parser's structural characters. -/
theorem isDigit_ne (c : Char) (h : c.isDigit = true) :
    c ≠ 'n' ∧ c ≠ 't' ∧ c ≠ 'f' ∧ c ≠ '"' ∧ c ≠ '[' ∧ c ≠ '{' ∧ c ≠ '-' ∧
    c ≠ '.' ∧ c ≠ 'e' ∧ c ≠ 'E' ∧ isWsChar c = false ∧ c ≠ ']' ∧ c ≠ '}' := by
  rw [isDigit_toNat] at h
  have hne : ∀ d : Char, d.toNat < 48 ∨ 57 < d.toNat → c ≠ d := by
    intro d hd he
    subst he
    rcases hd with hd | hd <;> omega
  refine ⟨hne 'n' (by decide), hne 't' (by decide), hne 'f' (by decide),
    hne '"' (by decide), hne '[' (by decide), hne '{' (by decide),
    hne '-' (by decide), hne '.' (by decide), hne 'e' (by decide),
    hne 'E' (by decide), ?_, hne ']' (by decide), hne '}' (by decide)⟩
  simp only [isWsChar, Bool.or_eq_false_iff, decide_eq_false_iff_not]
  exact ⟨⟨⟨hne ' ' (by decide), hne '\t' (by decide)⟩, hne '\n' (by decide)⟩,
    hne '\r' (by decide)⟩

theorem natCharsAux_acc (fuel : Nat) :
    ∀ (n : Nat) (acc : List Char),
      natCharsAux fuel n acc = natCharsAux fuel n [] ++ acc := by
  induction fuel with
  | zero => intro n acc; simp [natCharsAux]
  | succ fuel ih =>
    intro n acc
    by_cases h : n < 10
    · simp [natCharsAux, h]
    · simp only [natCharsAux, if_neg h]
      rw [ih (n / 10) (Char.ofNat (48 + n % 10) :: acc),
        ih (n / 10) [Char.ofNat (48 + n % 10)]]
      simp

theorem natCharsAux_fuel (n : Nat) : ∀ (f1 f2 : Nat), n < f1 → n < f2 →
    natCharsAux f1 n [] = natCharsAux f2 n [] := by
  induction n using Nat.strong_induction_on with
  | _ n ih =>
    intro f1 f2 h1 h2
    match f1, f2 with
    | g1 + 1, g2 + 1 =>
      by_cases h : n < 10
      · simp [natCharsAux, h]
      · simp only [natCharsAux, if_neg h]
        rw [natCharsAux_acc g1, natCharsAux_acc g2]
        have hlt : n / 10 < n := Nat.div_lt_self (by omega) (by omega)
        rw [ih (n / 10) hlt g1 g2 (by omega) (by omega)]

theorem natChars_step_lt (n : Nat) (h : n < 10) :
    natChars n = [Char.ofNat (48 + n)] := by
  simp [natChars, natCharsAux, h]

theorem natChars_step_ge (n : Nat) (h : 10 ≤ n) :
    natChars n = natChars (n / 10) ++ [Char.ofNat (48 + n % 10)] := by
  have hlt : n / 10 < n := Nat.div_lt_self (by omega) (by omega)
  have h1 : natChars n = natCharsAux n (n / 10) [Char.ofNat (48 + n % 10)] := by
    rw [natChars]
    simp only [natCharsAux]
    rw [if_neg (show ¬ n < 10 by omega)]
  rw [h1, natCharsAux_acc n, natCharsAux_fuel (n / 10) n (n / 10 + 1) hlt (by omega)]
  rfl

theorem natChars_ne_nil (n : Nat) : natChars n ≠ [] := by
  induction n using Nat.strong_induction_on with
  | _ n ih =>
    by_cases h : n < 10
    · simp [natChars_step_lt n h]
    · rw [natChars_step_ge n (by omega)]
      simp

theorem natChars_all_digit (n : Nat) : ∀ c ∈ natChars n, c.isDigit = true := by
  induction n using Nat.strong_induction_on with
  | _ n ih =>
    by_cases h : n < 10
    · rw [natChars_step_lt n h]
      intro c hc
      simp at hc
      subst hc
      exact digitChar_isDigit n h
    · rw [natChars_step_ge n (by omega)]
      intro c hc
      rcases List.mem_append.mp hc with hc | hc
      · exact ih (n / 10) (Nat.div_lt_self (by omega) (by omega)) c hc
      · simp at hc
        subst hc
        exact digitChar_isDigit (n % 10) (Nat.mod_lt n (by omega))

theorem natChars_readback (n : Nat) : digitsVal (natChars n) = n := by
  induction n using Nat.strong_induction_on with
  | _ n ih =>
    by_cases h : n < 10
    · rw [natChars_step_lt n h]
      simp [digitsVal, digitChar_toNat n h]
    · rw [natChars_step_ge n (by omega)]
      simp only [digitsVal, List.foldl_append]
      have := ih (n / 10) (Nat.div_lt_self (by omega) (by omega))
      simp only [digitsVal] at this
      rw [this]
      simp only [List.foldl_cons, List.foldl_nil,
        digitChar_toNat (n % 10) (Nat.mod_lt n (by omega))]
      omega

theorem natChars_head_ne_zero (n : Nat) :
    ∀ c cs, natChars n = c :: cs → n ≠ 0 → c ≠ '0' := by
  induction n using Nat.strong_induction_on with
  | _ n ih =>
    intro c cs hc hn
    by_cases h : n < 10
    · rw [natChars_step_lt n h] at hc
      injection hc with h1 _
      rw [← h1]
      exact digitChar_ne_zero n h hn
    · rw [natChars_step_ge n (by omega)] at hc
      rcases he : natChars (n / 10) with _ | ⟨c0, cs0⟩
      · exact absurd he (natChars_ne_nil (n / 10))
      · rw [he, List.cons_append] at hc
        injection hc with h1 _
        rw [← h1]
        exact ih (n / 10) (Nat.div_lt_self (by omega) (by omega)) c0 cs0 he (by omega)

theorem natChars_zero : natChars 0 = ['0'] := by decide

theorem takeWhile_append_all (p : Char → Bool) (xs rest : List Char)
    (hall : ∀ c ∈ xs, p c = true)
    (hrest : ∀ r rs, rest = r :: rs → p r = false) :
    (xs ++ rest).takeWhile p = xs ∧ (xs ++ rest).dropWhile p = rest := by
  induction xs with
  | nil =>
    rcases rest with _ | ⟨r, rs⟩
    · simp
    · simp [List.takeWhile, List.dropWhile, hrest r rs rfl]
  | cons x xs ih =>
    have hx : p x = true := hall x (by simp)
    have := ih (fun c hc => hall c (by simp [hc]))
    simp [List.takeWhile, List.dropWhile, hx, this.1, this.2]

theorem parseNumCore_natChars (n : Nat) (rest : List Char)
    (hrest : ∀ r rs, rest = r :: rs →
      (r.isDigit = false ∧ r ≠ '.' ∧ r ≠ 'e' ∧ r ≠ 'E')) :
    parseNumCore (natChars n ++ rest) = some (n, rest) := by
  rcases he : natChars n with _ | ⟨c, cs⟩
  · exact absurd he (natChars_ne_nil n)
  · have hdig : c.isDigit = true := by
      apply natChars_all_digit n
      rw [he]
      simp
    have hall : ∀ x ∈ (cs : List Char), Char.isDigit x = true := by
      intro x hx
      apply natChars_all_digit n
      rw [he]
      simp [hx]
    have htake := takeWhile_append_all Char.isDigit cs rest hall
      (fun r rs hr => (hrest r rs hr).1)
    have hT : List.takeWhile Char.isDigit (c :: (cs ++ rest)) = c :: cs := by
      rw [List.takeWhile_cons, if_pos hdig, htake.1]
    have hD : List.dropWhile Char.isDigit (c :: (cs ++ rest)) = rest := by
      rw [List.dropWhile_cons, if_pos hdig, htake.2]
    have hval : digitsVal (c :: cs) = n := by
      rw [← he]
      exact natChars_readback n
    have hnz : ¬(c = '0' ∧ 1 < ((c :: cs : List Char)).length) := by
      rintro ⟨hc0, hlen⟩
      by_cases hn0 : n = 0
      · subst hn0
        rw [natChars_zero] at he
        cases he
        simp at hlen
      · exact natChars_head_ne_zero n c cs he hn0 hc0
    show parseNumCore (c :: (cs ++ rest)) = some (n, rest)
    rw [parseNumCore, if_pos hdig, hT, hD, if_neg hnz]
    rcases rest with _ | ⟨r, rs⟩
    · rw [hval]
    · have hr := hrest r rs rfl
      show (if r = '.' ∨ r = 'e' ∨ r = 'E' then none
            else some (digitsVal (c :: cs), r :: rs)) = some (n, r :: rs)
      rw [if_neg (by simp [hr.2.1, hr.2.2.1, hr.2.2.2]), hval]

theorem parseNum_intChars (i : Int) (rest : List Char)
    (hrest : ∀ r rs, rest = r :: rs →
      (r.isDigit = false ∧ r ≠ '.' ∧ r ≠ 'e' ∧ r ≠ 'E')) :
    parseNum (intChars i ++ rest) = some (.num i, rest) := by
  cases i with
  | ofNat n =>
    rcases he : natChars n with _ | ⟨c, cs⟩
    · exact absurd he (natChars_ne_nil n)
    · have hdig : c.isDigit = true := by
        apply natChars_all_digit n
        rw [he]
        simp
      have hne := isDigit_ne c hdig
      have hcore := parseNumCore_natChars n rest hrest
      rw [he] at hcore
      simp only [intChars, he, List.cons_append, parseNum, if_neg hne.2.2.2.2.2.2.1]
      rw [← List.cons_append, hcore]
      simp
  | negSucc n =>
    have hcore := parseNumCore_natChars (n + 1) rest hrest
    simp only [intChars, List.cons_append, parseNum, if_pos rfl]
    rw [hcore]
    simp [Int.negSucc_eq]

/-! ### String escapes round-trip through the parser -/

theorem hexVal_hexDigitChar (d : Nat) (h : d < 16) :
    hexVal (hexDigitChar d) = some d := by
  interval_cases d <;> decide

theorem parseStrAux_escList : ∀ (l : List Char), ∀ (fuel : Nat) (rest : List Char),
    2 * l.length < fuel →
    parseStrAux fuel (escList l ++ '"' :: rest) = some (l, rest) := by
  intro l
  induction l with
  | nil =>
    intro fuel rest hf
    obtain ⟨f, rfl⟩ : ∃ f, fuel = f + 1 := ⟨fuel - 1, by omega⟩
    show parseStrAux (f + 1) ('"' :: rest) = some ([], rest)
    rw [parseStrAux.eq_def]
    rfl
  | cons c l ih =>
    intro fuel rest hf
    simp only [List.length_cons] at hf
    obtain ⟨f, rfl⟩ : ∃ f, fuel = f + 1 := ⟨fuel - 1, by omega⟩
    rw [escList, List.append_assoc]
    by_cases h1 : c = '"'
    · subst h1
      obtain ⟨g, rfl⟩ : ∃ g, f = g + 1 := ⟨f - 1, by omega⟩
      rw [parseStrAux.eq_def]
      show parseEscape (g + 1) ('"' :: (escList l ++ '"' :: rest)) = some ('"' :: l, rest)
      rw [parseEscape.eq_def]
      show (match parseStrAux g (escList l ++ '"' :: rest) with
            | some (s, r) => some ('"' :: s, r)
            | none => none) = some ('"' :: l, rest)
      rw [ih g rest (by omega)]
    · by_cases h2 : c = '\\'
      · subst h2
        obtain ⟨g, rfl⟩ : ∃ g, f = g + 1 := ⟨f - 1, by omega⟩
        rw [parseStrAux.eq_def]
        show parseEscape (g + 1) ('\\' :: (escList l ++ '"' :: rest)) = some ('\\' :: l, rest)
        rw [parseEscape.eq_def]
        show (match parseStrAux g (escList l ++ '"' :: rest) with
              | some (s, r) => some ('\\' :: s, r)
              | none => none) = some ('\\' :: l, rest)
        rw [ih g rest (by omega)]
      · by_cases h3 : c.toNat < 0x20
        · by_cases hb : c = '\x08'
          · subst hb
            obtain ⟨g, rfl⟩ : ∃ g, f = g + 1 := ⟨f - 1, by omega⟩
            rw [parseStrAux.eq_def]
            show parseEscape (g + 1) ('b' :: (escList l ++ '"' :: rest)) = some ('\x08' :: l, rest)
            rw [parseEscape.eq_def]
            show (match parseStrAux g (escList l ++ '"' :: rest) with
                  | some (s, r) => some ('\x08' :: s, r)
                  | none => none) = some ('\x08' :: l, rest)
            rw [ih g rest (by omega)]
          · by_cases ht : c = '\t'
            · subst ht
              obtain ⟨g, rfl⟩ : ∃ g, f = g + 1 := ⟨f - 1, by omega⟩
              rw [parseStrAux.eq_def]
              show parseEscape (g + 1) ('t' :: (escList l ++ '"' :: rest)) = some ('\t' :: l, rest)
              rw [parseEscape.eq_def]
              show (match parseStrAux g (escList l ++ '"' :: rest) with
                    | some (s, r) => some ('\t' :: s, r)
                    | none => none) = some ('\t' :: l, rest)
              rw [ih g rest (by omega)]
            · by_cases hn : c = '\n'
              · subst hn
                obtain ⟨g, rfl⟩ : ∃ g, f = g + 1 := ⟨f - 1, by omega⟩
                rw [parseStrAux.eq_def]
                show parseEscape (g + 1) ('n' :: (escList l ++ '"' :: rest)) = some ('\n' :: l, rest)
                rw [parseEscape.eq_def]
                show (match parseStrAux g (escList l ++ '"' :: rest) with
                      | some (s, r) => some ('\n' :: s, r)
                      | none => none) = some ('\n' :: l, rest)
                rw [ih g rest (by omega)]
              · by_cases hfc : c = '\x0c'
                · subst hfc
                  obtain ⟨g, rfl⟩ : ∃ g, f = g + 1 := ⟨f - 1, by omega⟩
                  rw [parseStrAux.eq_def]
                  show parseEscape (g + 1) ('f' :: (escList l ++ '"' :: rest))
                    = some ('\x0c' :: l, rest)
                  rw [parseEscape.eq_def]
                  show (match parseStrAux g (escList l ++ '"' :: rest) with
                        | some (s, r) => some ('\x0c' :: s, r)
                        | none => none) = some ('\x0c' :: l, rest)
                  rw [ih g rest (by omega)]
                · by_cases hr : c = '\r'
                  · subst hr
                    obtain ⟨g, rfl⟩ : ∃ g, f = g + 1 := ⟨f - 1, by omega⟩
                    rw [parseStrAux.eq_def]
                    show parseEscape (g + 1) ('r' :: (escList l ++ '"' :: rest))
                      = some ('\r' :: l, rest)
                    rw [parseEscape.eq_def]
                    show (match parseStrAux g (escList l ++ '"' :: rest) with
                          | some (s, r) => some ('\r' :: s, r)
                          | none => none) = some ('\r' :: l, rest)
                    rw [ih g rest (by omega)]
                  · have hhi : hexVal (hexDigitChar (c.toNat / 16)) = some (c.toNat / 16) :=
                      hexVal_hexDigitChar _ (by omega)
                    have hlo : hexVal (hexDigitChar (c.toNat % 16)) = some (c.toNat % 16) :=
                      hexVal_hexDigitChar _ (by omega)
                    have hesc : escChar c = '\\' :: 'u' :: '0' :: '0' ::
                        hexDigitChar (c.toNat / 16) :: hexDigitChar (c.toNat % 16) :: [] := by
                      simp [escChar, h1, h2, h3, hb, ht, hn, hfc, hr]
                    rw [hesc]
                    obtain ⟨g, rfl⟩ : ∃ g, f = g + 1 := ⟨f - 1, by omega⟩
                    rw [parseStrAux.eq_def]
                    show parseEscape (g + 1) ('u' :: '0' :: '0' ::
                        hexDigitChar (c.toNat / 16) :: hexDigitChar (c.toNat % 16) ::
                        (escList l ++ '"' :: rest)) = some (c :: l, rest)
                    rw [parseEscape.eq_def]
                    show (match hex4 '0' '0' (hexDigitChar (c.toNat / 16))
                            (hexDigitChar (c.toNat % 16)) with
                          | none => none
                          | some n =>
                            if 0xD800 ≤ n ∧ n < 0xDC00 then
                              parseSurrogate g n (escList l ++ '"' :: rest)
                            else if 0xDC00 ≤ n ∧ n < 0xE000 then none
                            else
                              match parseStrAux g (escList l ++ '"' :: rest) with
                              | some (s, r) => some (Char.ofNat n :: s, r)
                              | none => none) = some (c :: l, rest)
                    have hhex : hex4 '0' '0' (hexDigitChar (c.toNat / 16))
                        (hexDigitChar (c.toNat % 16)) = some c.toNat := by
                      have h0 : hexVal '0' = some 0 := rfl
                      simp only [hex4, h0, hhi, hlo]
                      congr 1
                      omega
                    rw [hhex]
                    show (if 0xD800 ≤ c.toNat ∧ c.toNat < 0xDC00 then
                            parseSurrogate g c.toNat (escList l ++ '"' :: rest)
                          else if 0xDC00 ≤ c.toNat ∧ c.toNat < 0xE000 then none
                          else
                            match parseStrAux g (escList l ++ '"' :: rest) with
                            | some (s, r) => some (Char.ofNat c.toNat :: s, r)
                            | none => none) = some (c :: l, rest)
                    rw [if_neg (by omega), if_neg (by omega), ih g rest (by omega),
                      Char.ofNat_toNat]
        · have hesc : escChar c = [c] := by
            simp [escChar, h1, h2, h3]
          rw [hesc]
          have h3' : ¬ c.toNat < 0x20 := h3
          rw [parseStrAux.eq_def]
          show (if c = '"' then some ([], escList l ++ '"' :: rest)
                else if c = '\\' then parseEscape f (escList l ++ '"' :: rest)
                else if c.toNat < 0x20 then none
                else
                  match parseStrAux f (escList l ++ '"' :: rest) with
                  | some (s, r) => some (c :: s, r)
                  | none => none) = some (c :: l, rest)
          rw [if_neg h1, if_neg h2, if_neg h3', ih f rest (by omega)]

theorem escChar_length_pos (c : Char) : 1 ≤ (escChar c).length := by
  by_cases h1 : c = '"'
  · simp [escChar, h1]
  · by_cases h2 : c = '\\'
    · simp [escChar, h1, h2]
    · by_cases h3 : c.toNat < 0x20
      · by_cases hb : c = '\x08' <;> by_cases ht : c = '\t' <;> by_cases hn : c = '\n' <;>
          by_cases hf : c = '\x0c' <;> by_cases hr : c = '\r' <;>
          simp [escChar, h1, h2, h3, hb, ht, hn, hf, hr]
      · simp [escChar, h1, h2, h3]

theorem escList_length_ge (l : List Char) : l.length ≤ (escList l).length := by
  induction l with
  | nil => simp [escList]
  | cons c cs ih =>
    rw [escList]
    simp only [List.length_append, List.length_cons]
    have := escChar_length_pos c
    omega

theorem parseStr_escList (l : List Char) (rest : List Char) :
    parseStr (escList l ++ '"' :: rest) = some (l, rest) := by
  apply parseStrAux_escList
  simp only [List.length_append, List.length_cons]
  have := escList_length_ge l
  omega

/-! ### The serializer round-trips through the value parser -/

theorem skipWs_cons_not_ws (c : Char) (r : List Char) (h : isWsChar c = false) :
    skipWs (c :: r) = c :: r := by
  rw [skipWs]
  simp [h]

theorem needV_pos (v : Json) : 1 ≤ needV v := by
  cases v with
  | arr xs => cases xs <;> simp [needV]
  | obj kvs => cases kvs <;> simp [needV]
  | null => simp [needV]
  | bool b => simp [needV]
  | num n => simp [needV]
  | str s => simp [needV]

theorem needE_pos (vs : List Json) : 1 ≤ needE vs := by
  cases vs <;> simp [needE]

theorem needM_pos (kvs : List (String × Json)) : 1 ≤ needM kvs := by
  cases kvs with
  | nil => simp [needM]
  | cons kv rest =>
    obtain ⟨k, v⟩ := kv
    simp [needM]

/-- Dispatch of `parseVal` on a head character that starts a number. -/
theorem parseVal_nonspecial (fuel : Nat) (c : Char) (tail : List Char)
    (hn : c ≠ 'n') (ht : c ≠ 't') (hf : c ≠ 'f') (hq : c ≠ '"') (hlb : c ≠ '[')
    (hob : c ≠ '{') (hw : isWsChar c = false) :
    parseVal (fuel + 1) (c :: tail) = parseNum (c :: tail) := by
  change (match skipWs (c :: tail) with
          | [] => (none : Option (Json × List Char))
          | c :: rest => _) = _
  rw [skipWs, if_neg (by simp [hw])]
  change (if c = 'n' then _ else _) = _
  rw [if_neg hn]
  change (if c = 't' then _ else _) = _
  rw [if_neg ht]
  change (if c = 'f' then _ else _) = _
  rw [if_neg hf]
  change (if c = '"' then _ else _) = _
  rw [if_neg hq]
  change (if c = '[' then _ else _) = _
  rw [if_neg hlb]
  change (if c = '{' then _ else _) = _
  rw [if_neg hob]

/-- Dispatch of `parseVal` into a non-empty array body. -/
theorem parseVal_arrBranch (fuel : Nat) (c : Char) (t0 : List Char)
    (hw : isWsChar c = false) (hbr : c ≠ ']') :
    parseVal (fuel + 1) ('[' :: c :: t0) =
      (match parseElems fuel (c :: t0) with
       | some (vs, r) => some (Json.arr vs, r)
       | none => (none : Option (Json × List Char))) := by
  show (match skipWs (c :: t0) with
        | [] => (none : Option (Json × List Char))
        | c2 :: r2 =>
          if c2 = ']' then some (Json.arr [], r2)
          else
            match parseElems fuel (c2 :: r2) with
            | some (vs, r) => some (Json.arr vs, r)
            | none => none) = _
  rw [skipWs, if_neg (by simp [hw])]
  show (if c = ']' then some (Json.arr [], t0)
        else
          match parseElems fuel (c :: t0) with
          | some (vs, r) => some (Json.arr vs, r)
          | none => none) = _
  rw [if_neg hbr]

/-- The first character of a serialized value: never whitespace and never a
closing delimiter. -/
theorem serJson_head (v : Json) :
    ∃ c t, serJson v = c :: t ∧ isWsChar c = false ∧ c ≠ ']' ∧ c ≠ '}' := by
  cases v with
  | null => refine ⟨'n', _, rfl, ?_, ?_, ?_⟩ <;> decide
  | bool b => cases b with
    | true => refine ⟨'t', _, rfl, ?_, ?_, ?_⟩ <;> decide
    | false => refine ⟨'f', _, rfl, ?_, ?_, ?_⟩ <;> decide
  | num i =>
    cases i with
    | ofNat n =>
      rcases he : natChars n with _ | ⟨c, cs⟩
      · exact absurd he (natChars_ne_nil n)
      · have hdig : c.isDigit = true := by
          apply natChars_all_digit n
          rw [he]
          simp
        have hne := isDigit_ne c hdig
        exact ⟨c, cs, by simp only [serJson, intChars]; exact he,
          hne.2.2.2.2.2.2.2.2.2.2.1, hne.2.2.2.2.2.2.2.2.2.2.2.1,
          hne.2.2.2.2.2.2.2.2.2.2.2.2⟩
    | negSucc n =>
      refine ⟨'-', _, rfl, ?_, ?_, ?_⟩ <;> decide
  | str s => refine ⟨'"', _, rfl, ?_, ?_, ?_⟩ <;> decide
  | arr xs =>
    cases xs with
    | nil => refine ⟨'[', _, rfl, ?_, ?_, ?_⟩ <;> decide
    | cons x rest => refine ⟨'[', _, rfl, ?_, ?_, ?_⟩ <;> decide
  | obj kvs =>
    cases kvs with
    | nil => refine ⟨'{', _, rfl, ?_, ?_, ?_⟩ <;> decide
    | cons kv rest =>
      obtain ⟨k, v⟩ := kv
      refine ⟨'{', _, rfl, ?_, ?_, ?_⟩ <;> decide

theorem numSafe_nil : numSafe [] := by
  intro r rs h
  cases h

theorem numSafe_cons (c : Char) (l : List Char) (h1 : c.isDigit = false)
    (h2 : c ≠ '.') (h3 : c ≠ 'e') (h4 : c ≠ 'E') : numSafe (c :: l) := by
  intro r rs h
  cases h
  exact ⟨h1, h2, h3, h4⟩

theorem parseVal_null (f : Nat) (rest : List Char) :
    parseVal (f + 1) ('n' :: 'u' :: 'l' :: 'l' :: rest) = some (.null, rest) := rfl

theorem parseVal_true (f : Nat) (rest : List Char) :
    parseVal (f + 1) ('t' :: 'r' :: 'u' :: 'e' :: rest) = some (.bool true, rest) := rfl

theorem parseVal_false (f : Nat) (rest : List Char) :
    parseVal (f + 1) ('f' :: 'a' :: 'l' :: 's' :: 'e' :: rest) =
      some (.bool false, rest) := rfl

theorem parseVal_arrEmpty (f : Nat) (rest : List Char) :
    parseVal (f + 1) ('[' :: ']' :: rest) = some (.arr [], rest) := rfl

theorem parseVal_objEmpty (f : Nat) (rest : List Char) :
    parseVal (f + 1) ('{' :: '}' :: rest) = some (.obj [], rest) := rfl

/-- Dispatch of `parseVal` into a non-empty object body (members always start
with a quote). -/
theorem parseVal_objBranch (f : Nat) (t0 : List Char) :
    parseVal (f + 1) ('{' :: '"' :: t0) =
      (match parseMembers f ('"' :: t0) with
       | some (kvs, r) => some (Json.obj kvs, r)
       | none => none) := rfl

/-- One step of `parseElems` at positive fuel. -/
theorem parseElems_eq (f : Nat) (cs : List Char) :
    parseElems (f + 1) cs =
      (match parseVal f cs with
       | some (v, r) =>
         (match skipWs r with
          | [] => none
          | c2 :: r2 =>
            if c2 = ',' then
              match parseElems f r2 with
              | some (vs, r3) => some (v :: vs, r3)
              | none => none
            else if c2 = ']' then some ([v], r2)
            else none)
       | none => none) := rfl

/-- One step of `parseMembers` at positive fuel, on an input beginning with a
serialized key and its colon. -/
theorem parseMembers_eq (f : Nat) (kd : List Char) (y : List Char) :
    parseMembers (f + 1) ('"' :: (escList kd ++ '"' :: (':' :: y))) =
      (match parseVal f y with
       | some (v, r3) =>
         (match skipWs r3 with
          | [] => none
          | c3 :: r4 =>
            if c3 = ',' then
              match parseMembers f r4 with
              | some (kvs, r5) => some (addMember (String.mk kd) v kvs, r5)
              | none => none
            else if c3 = '}' then some ([(String.mk kd, v)], r4)
            else none)
       | none => none) := by
  show (match parseStr (escList kd ++ '"' :: (':' :: y)) with
        | some (kcs, r1) =>
          (match skipWs r1 with
           | [] => none
           | c1 :: r2 =>
             if c1 = ':' then
               match parseVal f r2 with
               | some (v, r3) =>
                 (match skipWs r3 with
                  | [] => none
                  | c3 :: r4 =>
                    if c3 = ',' then
                      match parseMembers f r4 with
                      | some (kvs, r5) => some (addMember (String.mk kcs) v kvs, r5)
                      | none => none
                    else if c3 = '}' then some ([(String.mk kcs, v)], r4)
                    else none)
               | none => none
             else none)
        | none => none) = _
  rw [parseStr_escList]
  rfl

/-- `parseVal` on a serialized string literal. -/
theorem parseVal_str (f : Nat) (s : String) (rest : List Char) :
    parseVal (f + 1) (serStr s ++ rest) = some (.str s, rest) := by
  have h : serStr s ++ rest = '"' :: (escList s.data ++ '"' :: rest) := by
    simp [serStr]
  rw [h]
  show (match parseStr (escList s.data ++ '"' :: rest) with
        | some (l, r) => some (Json.str (String.mk l), r)
        | none => none) = some (.str s, rest)
  rw [parseStr_escList]

/-- `parseVal` on a serialized integer literal. -/
theorem parseVal_num (f : Nat) (i : Int) (rest : List Char) (hs : numSafe rest) :
    parseVal (f + 1) (intChars i ++ rest) = some (.num i, rest) := by
  have hrest : ∀ r rs, rest = r :: rs →
      (r.isDigit = false ∧ r ≠ '.' ∧ r ≠ 'e' ∧ r ≠ 'E') := hs
  cases i with
  | ofNat n =>
    rcases he : natChars n with _ | ⟨c, cs⟩
    · exact absurd he (natChars_ne_nil n)
    · have hdig : c.isDigit = true := by
        apply natChars_all_digit n
        rw [he]
        simp
      have hne := isDigit_ne c hdig
      have hform : intChars (Int.ofNat n) ++ rest = c :: (cs ++ rest) := by
        simp [intChars, he]
      rw [hform, parseVal_nonspecial f c (cs ++ rest) hne.1 hne.2.1 hne.2.2.1
        hne.2.2.2.1 hne.2.2.2.2.1 hne.2.2.2.2.2.1 hne.2.2.2.2.2.2.2.2.2.2.1]
      have := parseNum_intChars (Int.ofNat n) rest hrest
      rw [hform] at this
      exact this
  | negSucc n =>
    have hform : intChars (Int.negSucc n) ++ rest = '-' :: (natChars (n + 1) ++ rest) := by
      simp [intChars]
    rw [hform, parseVal_nonspecial f '-' (natChars (n + 1) ++ rest) (by decide)
      (by decide) (by decide) (by decide) (by decide) (by decide) (by decide)]
    have := parseNum_intChars (Int.negSucc n) rest hrest
    rw [hform] at this
    exact this

/-- The serializer round-trips through the value parser: with sufficient fuel,
parsing the serialization of a canonical value consumes exactly that
serialization and returns the value (stated jointly for values, array tails
and object tails). -/
theorem roundAll (fuel : Nat) :
    (∀ v rest, canonJson v = true → needV v ≤ fuel → numSafe rest →
       parseVal fuel (serJson v ++ rest) = some (v, rest)) ∧
    (∀ x xs rest, canonJson x = true → canonElems xs = true →
       needE (x :: xs) ≤ fuel →
       parseElems fuel (serJson x ++ (serElemsTail xs ++ ']' :: rest)) =
         some (x :: xs, rest)) ∧
    (∀ k v kvs rest, canonJson v = true → canonMembers kvs = true →
       lookupKey k kvs = none → noDupKeys kvs = true →
       needM ((k, v) :: kvs) ≤ fuel →
       parseMembers fuel
           (serStr k ++ ':' :: (serJson v ++ (serMembersTail kvs ++ '}' :: rest))) =
         some ((k, v) :: kvs, rest)) := by
  induction fuel with
  | zero =>
    refine ⟨?_, ?_, ?_⟩
    · intro v rest _ hn _
      have := needV_pos v
      omega
    · intro x xs rest _ _ hn
      have := needE_pos (x :: xs)
      omega
    · intro k v kvs rest _ _ _ _ hn
      have := needM_pos ((k, v) :: kvs)
      omega
  | succ f ih =>
    obtain ⟨ihV, ihE, ihM⟩ := ih
    refine ⟨?_, ?_, ?_⟩
    · intro v rest hc hn hs
      cases v with
      | null => exact parseVal_null f rest
      | bool b =>
        cases b with
        | false => exact parseVal_false f rest
        | true => exact parseVal_true f rest
      | num i => exact parseVal_num f i rest hs
      | str s => exact parseVal_str f s rest
      | arr xs =>
        cases xs with
        | nil => exact parseVal_arrEmpty f rest
        | cons x xs =>
          have hc' : canonJson x = true ∧ canonElems xs = true := by
            simpa only [canonJson, canonElems, Bool.and_eq_true] using hc
          have hn' : needE (x :: xs) ≤ f := by
            simp only [needV] at hn
            omega
          obtain ⟨c, t, hst, hw, hbr, _⟩ := serJson_head x
          have hform : serJson (.arr (x :: xs)) ++ rest
              = '[' :: c :: (t ++ (serElemsTail xs ++ ']' :: rest)) := by
            show ('[' :: (serJson x ++ serElemsTail xs ++ [']'])) ++ rest = _
            rw [hst]
            simp [List.append_assoc]
          rw [hform, parseVal_arrBranch f c (t ++ (serElemsTail xs ++ ']' :: rest)) hw hbr]
          have hx : c :: (t ++ (serElemsTail xs ++ ']' :: rest))
              = serJson x ++ (serElemsTail xs ++ ']' :: rest) := by
            rw [hst]
            rfl
          rw [hx, ihE x xs rest hc'.1 hc'.2 hn']
      | obj kvs =>
        cases kvs with
        | nil => exact parseVal_objEmpty f rest
        | cons kv kvs =>
          obtain ⟨k, v⟩ := kv
          have hc' : (lookupKey k kvs = none ∧ noDupKeys kvs = true) ∧
              canonJson v = true ∧ canonMembers kvs = true := by
            simpa only [canonJson, noDupKeys, canonMembers, Bool.and_eq_true,
              Option.isNone_iff_eq_none] using hc
          have hn' : needM ((k, v) :: kvs) ≤ f := by
            simp only [needV] at hn
            omega
          have hform : serJson (.obj ((k, v) :: kvs)) ++ rest
              = '{' :: '"' :: (escList k.data ++ '"' :: (':' ::
                  (serJson v ++ (serMembersTail kvs ++ '}' :: rest)))) := by
            show ('{' :: (serStr k ++ ':' :: serJson v ++ serMembersTail kvs ++ ['}'])) ++ rest = _
            simp [serStr, List.append_assoc]
          rw [hform, parseVal_objBranch f]
          have heq : ('"' :: (escList k.data ++ '"' :: (':' ::
              (serJson v ++ (serMembersTail kvs ++ '}' :: rest)))))
              = serStr k ++ ':' :: (serJson v ++ (serMembersTail kvs ++ '}' :: rest)) := by
            simp [serStr]
          rw [heq, ihM k v kvs rest hc'.2.1 hc'.2.2 hc'.1.1 hc'.1.2 hn']
    · intro x xs rest hcx hcxs hn
      have hb : max (needV x) (needE xs) + 1 ≤ f + 1 := by
        simpa only [needE] using hn
      have h1 := Nat.le_max_left (needV x) (needE xs)
      have h2 := Nat.le_max_right (needV x) (needE xs)
      have hnV : needV x ≤ f := by omega
      have hnE : needE xs ≤ f := by omega
      cases xs with
      | nil =>
        rw [parseElems_eq, ihV x (serElemsTail [] ++ ']' :: rest) hcx hnV
          (numSafe_cons ']' rest (by decide) (by decide) (by decide) (by decide))]
        rfl
      | cons y ys =>
        have hcy : canonJson y = true ∧ canonElems ys = true := by
          simpa only [canonElems, Bool.and_eq_true] using hcxs
        have hre : serElemsTail (y :: ys) ++ ']' :: rest
            = ',' :: (serJson y ++ (serElemsTail ys ++ ']' :: rest)) := by
          simp [serElemsTail, List.append_assoc]
        rw [parseElems_eq, hre, ihV x
          (',' :: (serJson y ++ (serElemsTail ys ++ ']' :: rest))) hcx hnV
          (numSafe_cons ',' _ (by decide) (by decide) (by decide) (by decide))]
        show (match parseElems f (serJson y ++ (serElemsTail ys ++ ']' :: rest)) with
              | some (vs, r3) => some (x :: vs, r3)
              | none => none) = some (x :: y :: ys, rest)
        rw [ihE y ys rest hcy.1 hcy.2 hnE]
    · intro k v kvs rest hcv hcm hlk hnd hn
      have hb : max (needV v) (needM kvs) + 1 ≤ f + 1 := by
        simpa only [needM] using hn
      have h1 := Nat.le_max_left (needV v) (needM kvs)
      have h2 := Nat.le_max_right (needV v) (needM kvs)
      have hnV : needV v ≤ f := by omega
      have hnM : needM kvs ≤ f := by omega
      cases kvs with
      | nil =>
        have hform : serStr k ++ ':' :: (serJson v ++ (serMembersTail [] ++ '}' :: rest))
            = '"' :: (escList k.data ++ '"' :: (':' :: (serJson v ++ ('}' :: rest)))) := by
          simp [serStr, serMembersTail]
        rw [hform, parseMembers_eq f k.data (serJson v ++ ('}' :: rest)),
          ihV v ('}' :: rest) hcv hnV
            (numSafe_cons '}' rest (by decide) (by decide) (by decide) (by decide))]
        rfl
      | cons kv2 kvs2 =>
        obtain ⟨k2, v2⟩ := kv2
        have hcm' : canonJson v2 = true ∧ canonMembers kvs2 = true := by
          simpa only [canonMembers, Bool.and_eq_true] using hcm
        have hnd' : lookupKey k2 kvs2 = none ∧ noDupKeys kvs2 = true := by
          simpa only [noDupKeys, Bool.and_eq_true, Option.isNone_iff_eq_none] using hnd
        have hform : serStr k ++ ':' ::
              (serJson v ++ (serMembersTail ((k2, v2) :: kvs2) ++ '}' :: rest))
            = '"' :: (escList k.data ++ '"' :: (':' :: (serJson v ++
                (',' :: (serStr k2 ++ ':' ::
                  (serJson v2 ++ (serMembersTail kvs2 ++ '}' :: rest))))))) := by
          simp [serStr, serMembersTail, List.append_assoc]
        rw [hform, parseMembers_eq f k.data, ihV v
            (',' :: (serStr k2 ++ ':' :: (serJson v2 ++ (serMembersTail kvs2 ++ '}' :: rest))))
            hcv hnV (numSafe_cons ',' _ (by decide) (by decide) (by decide) (by decide))]
        show (match parseMembers f
                (serStr k2 ++ ':' :: (serJson v2 ++ (serMembersTail kvs2 ++ '}' :: rest))) with
              | some (kvs', r5) => some (addMember (String.mk k.data) v kvs', r5)
              | none => none) = some ((k, v) :: (k2, v2) :: kvs2, rest)
        rw [ihM k2 v2 kvs2 rest hcm'.1 hcm'.2 hnd'.1 hnd'.2 hnM]
        have hkd : String.mk k.data = k := rfl
        rw [hkd]
        simp only [addMember, hlk]

theorem serJson_length_pos (v : Json) : 1 ≤ (serJson v).length := by
  obtain ⟨c, t, h, _, _, _⟩ := serJson_head v
  rw [h]
  simp

theorem needE_le_aux (x : Json) (xs : List Json)
    (h : ∀ y ∈ x :: xs, needV y ≤ (serJson y).length) :
    needE (x :: xs) ≤ (serJson x).length + (serElemsTail xs).length + 1 := by
  induction xs generalizing x with
  | nil =>
    have hg : needE [x] = max (needV x) 1 + 1 := by simp only [needE]
    rw [hg]
    have hx := h x (by simp)
    have hm := Nat.max_le.mpr ⟨hx, serJson_length_pos x⟩
    simp only [serElemsTail, List.length_nil]
    omega
  | cons y ys ihy =>
    have hg : needE (x :: y :: ys) = max (needV x) (needE (y :: ys)) + 1 := by
      simp only [needE]
    have hser : serElemsTail (y :: ys) = ',' :: (serJson y ++ serElemsTail ys) := by
      simp only [serElemsTail]
    have hA := h x (by simp)
    have hB := ihy y (fun z hz => h z (List.mem_cons_of_mem x hz))
    rw [hg, hser]
    simp only [List.length_cons, List.length_append]
    have hm : max (needV x) (needE (y :: ys)) ≤
        (serJson x).length + ((serJson y).length + (serElemsTail ys).length + 1) :=
      Nat.max_le.mpr ⟨by omega, by omega⟩
    omega

theorem needM_le_aux (k : String) (v : Json) (kvs : List (String × Json))
    (h : ∀ kv ∈ (k, v) :: kvs, needV kv.2 ≤ (serJson kv.2).length) :
    needM ((k, v) :: kvs) ≤ (serJson v).length + (serMembersTail kvs).length + 1 := by
  induction kvs generalizing k v with
  | nil =>
    have hg : needM [(k, v)] = max (needV v) 1 + 1 := by simp only [needM]
    rw [hg]
    have hx : needV v ≤ (serJson v).length := h (k, v) (by simp)
    have hm := Nat.max_le.mpr ⟨hx, serJson_length_pos v⟩
    simp only [serMembersTail, List.length_nil]
    omega
  | cons kv2 kvs2 ihm =>
    obtain ⟨k2, v2⟩ := kv2
    have hg : needM ((k, v) :: (k2, v2) :: kvs2)
        = max (needV v) (needM ((k2, v2) :: kvs2)) + 1 := by
      simp only [needM]
    have hser : serMembersTail ((k2, v2) :: kvs2)
        = ',' :: (serStr k2 ++ ':' :: serJson v2 ++ serMembersTail kvs2) := by
      simp only [serMembersTail]
    have hA : needV v ≤ (serJson v).length := h (k, v) (by simp)
    have hB := ihm k2 v2 (fun z hz => h z (List.mem_cons_of_mem (k, v) hz))
    rw [hg, hser]
    simp only [List.length_cons, List.length_append]
    have hm : max (needV v) (needM ((k2, v2) :: kvs2)) ≤
        (serJson v).length + ((serStr k2).length +
          ((serJson v2).length + (serMembersTail kvs2).length + 1) + 1) :=
      Nat.max_le.mpr ⟨by omega, by omega⟩
    omega

/-- The parser's default fuel covers every serialized value. -/
theorem needV_le (v : Json) : needV v ≤ (serJson v).length := by
  induction v using Json.inductionOn with
  | hnull => simp [needV, serJson]
  | hbool b => cases b <;> simp [needV, serJson]
  | hnum i =>
    have hg : needV (.num i) = 1 := by simp only [needV]
    rw [hg]
    cases i with
    | ofNat n =>
      have hne := natChars_ne_nil n
      have : serJson (.num (Int.ofNat n)) = natChars n := by simp only [serJson, intChars]
      rw [this]
      exact List.length_pos.mpr hne
    | negSucc n =>
      have : serJson (.num (Int.negSucc n)) = '-' :: natChars (n + 1) := by
        simp only [serJson, intChars]
      rw [this]
      simp
  | hstr s =>
    have : serJson (.str s) = '"' :: (escList s.data ++ ['"']) := by
      simp only [serJson, serStr]
    rw [this]
    simp [needV]
  | harr xs ih =>
    cases xs with
    | nil => simp [needV, serJson]
    | cons x xs =>
      have hE := needE_le_aux x xs ih
      have hg : needV (.arr (x :: xs)) = needE (x :: xs) + 1 := by simp only [needV]
      have hs : serJson (.arr (x :: xs)) = '[' :: (serJson x ++ serElemsTail xs ++ [']']) := by
        simp only [serJson]
      rw [hg, hs]
      simp only [List.length_cons, List.length_append, List.length_nil]
      omega
  | hobj kvs ih =>
    cases kvs with
    | nil => simp [needV, serJson]
    | cons kv kvs =>
      obtain ⟨k, v⟩ := kv
      have hM := needM_le_aux k v kvs ih
      have hg : needV (.obj ((k, v) :: kvs)) = needM ((k, v) :: kvs) + 1 := by
        simp only [needV]
      have hs : serJson (.obj ((k, v) :: kvs))
          = '{' :: (serStr k ++ ':' :: serJson v ++ serMembersTail kvs ++ ['}']) := by
        simp only [serJson]
      rw [hg, hs]
      simp only [List.length_cons, List.length_append, List.length_nil]
      omega

/-- Parsing the full serialization of a canonical value returns the value. -/
theorem parse_serJson (v : Json) (h : canonJson v = true) :
    parseJsonChars (serJson v) = some v := by
  have hle : needV v ≤ (serJson v).length + 1 := le_trans (needV_le v) (Nat.le_succ _)
  have hV := (roundAll ((serJson v).length + 1)).1 v [] h hle numSafe_nil
  rw [List.append_nil] at hV
  unfold parseJsonChars
  rw [hV]
  rfl

/-- Parsing the serialized text of a canonical value returns the value. -/
theorem parseJson_serToString (v : Json) (h : canonJson v = true) :
    parseJson (serToString v) = some v :=
  parse_serJson v h

/-! ### Every parsed document is canonical -/

theorem lookup_eraseKey_self (k : String) (l : List (String × Json)) :
    lookupKey k (eraseKey k l) = none := by
  induction l with
  | nil => simp [eraseKey, lookupKey]
  | cons kv rest ih =>
    obtain ⟨q, v⟩ := kv
    by_cases hk : q = k
    · simp [eraseKey, hk, ih]
    · simp [eraseKey, hk, lookupKey, ih]

theorem lookup_eraseKey_none (k q : String) (l : List (String × Json)) :
    lookupKey q l = none → lookupKey q (eraseKey k l) = none := by
  induction l with
  | nil => intro _; simp [eraseKey, lookupKey]
  | cons kv rest ih =>
    obtain ⟨p, v⟩ := kv
    intro h
    by_cases hq : p = q
    · rw [lookupKey, if_pos hq] at h
      simp at h
    · rw [lookupKey, if_neg hq] at h
      by_cases hk : p = k
      · simp only [eraseKey, if_pos hk]
        exact ih h
      · simp only [eraseKey, if_neg hk, lookupKey, if_neg hq]
        exact ih h

theorem noDup_eraseKey (k : String) (l : List (String × Json)) :
    noDupKeys l = true → noDupKeys (eraseKey k l) = true := by
  induction l with
  | nil => intro _; simp [eraseKey, noDupKeys]
  | cons kv rest ih =>
    obtain ⟨q, v⟩ := kv
    intro h
    simp only [noDupKeys, Bool.and_eq_true, Option.isNone_iff_eq_none] at h
    by_cases hk : q = k
    · simp only [eraseKey, if_pos hk]
      exact ih h.2
    · simp only [eraseKey, if_neg hk, noDupKeys, Bool.and_eq_true,
        Option.isNone_iff_eq_none]
      exact ⟨lookup_eraseKey_none k q rest h.1, ih h.2⟩

theorem canonMembers_eraseKey (k : String) (l : List (String × Json)) :
    canonMembers l = true → canonMembers (eraseKey k l) = true := by
  induction l with
  | nil => intro _; simp [eraseKey, canonMembers]
  | cons kv rest ih =>
    obtain ⟨q, v⟩ := kv
    intro h
    simp only [canonMembers, Bool.and_eq_true] at h
    by_cases hk : q = k
    · simp only [eraseKey, if_pos hk]
      exact ih h.2
    · simp only [eraseKey, if_neg hk, canonMembers, Bool.and_eq_true]
      exact ⟨h.1, ih h.2⟩

theorem canonMembers_lookup (k : String) (l : List (String × Json)) (v : Json) :
    canonMembers l = true → lookupKey k l = some v → canonJson v = true := by
  induction l with
  | nil => intro _ h; simp [lookupKey] at h
  | cons kv rest ih =>
    obtain ⟨q, w⟩ := kv
    intro hc h
    simp only [canonMembers, Bool.and_eq_true] at hc
    by_cases hq : q = k
    · rw [lookupKey, if_pos hq] at h
      simp only [Option.some.injEq] at h
      subst h
      exact hc.1
    · rw [lookupKey, if_neg hq] at h
      exact ih hc.2 h

/-- `addMember` keeps the parsed member list canonical and duplicate-free. -/
theorem canon_addMember (k : String) (v : Json) (kvs : List (String × Json))
    (hv : canonJson v = true) (hc : canonMembers kvs = true)
    (hd : noDupKeys kvs = true) :
    canonMembers (addMember k v kvs) = true ∧ noDupKeys (addMember k v kvs) = true := by
  cases heq : lookupKey k kvs with
  | some w =>
    simp only [addMember, heq]
    refine ⟨?_, ?_⟩
    · simp only [canonMembers, Bool.and_eq_true]
      exact ⟨canonMembers_lookup k kvs w hc heq, canonMembers_eraseKey k kvs hc⟩
    · simp only [noDupKeys, Bool.and_eq_true, Option.isNone_iff_eq_none]
      exact ⟨lookup_eraseKey_self k kvs, noDup_eraseKey k kvs hd⟩
  | none =>
    simp only [addMember, heq]
    refine ⟨?_, ?_⟩
    · simp only [canonMembers, Bool.and_eq_true]
      exact ⟨hv, hc⟩
    · simp only [noDupKeys, Bool.and_eq_true, Option.isNone_iff_eq_none]
      exact ⟨heq, hd⟩

/-- Values produced by `parseNum` are numbers. -/
theorem parseNum_shape (cs : List Char) (v : Json) (r : List Char)
    (h : parseNum cs = some (v, r)) : ∃ i, v = Json.num i := by
  unfold parseNum at h
  split at h
  · simp at h
  · split at h
    · split at h
      · simp only [Option.some.injEq, Prod.mk.injEq] at h
        exact ⟨_, h.1.symm⟩
      · simp at h
    · split at h
      · simp only [Option.some.injEq, Prod.mk.injEq] at h
        exact ⟨_, h.1.symm⟩
      · simp at h

/-- One step of `parseVal` at positive fuel. -/
theorem parseVal_succ (f : Nat) (cs : List Char) :
    parseVal (f + 1) cs =
      (match skipWs cs with
       | [] => none
       | c :: rest =>
         if c = 'n' then
           match rest with
           | c1 :: c2 :: c3 :: r =>
             if c1 = 'u' ∧ c2 = 'l' ∧ c3 = 'l' then some (.null, r) else none
           | _ => none
         else if c = 't' then
           match rest with
           | c1 :: c2 :: c3 :: r =>
             if c1 = 'r' ∧ c2 = 'u' ∧ c3 = 'e' then some (.bool true, r) else none
           | _ => none
         else if c = 'f' then
           match rest with
           | c1 :: c2 :: c3 :: c4 :: r =>
             if c1 = 'a' ∧ c2 = 'l' ∧ c3 = 's' ∧ c4 = 'e' then some (.bool false, r)
             else none
           | _ => none
         else if c = '"' then
           match parseStr rest with
           | some (s, r) => some (.str (String.mk s), r)
           | none => none
         else if c = '[' then
           match skipWs rest with
           | [] => none
           | c2 :: r2 =>
             if c2 = ']' then some (.arr [], r2)
             else
               match parseElems f (c2 :: r2) with
               | some (vs, r) => some (.arr vs, r)
               | none => none
         else if c = '{' then
           match skipWs rest with
           | [] => none
           | c2 :: r2 =>
             if c2 = '}' then some (.obj [], r2)
             else
               match parseMembers f (c2 :: r2) with
               | some (kvs, r) => some (.obj kvs, r)
               | none => none
         else parseNum (c :: rest)) := rfl

/-- One step of `parseMembers` at positive fuel. -/
theorem parseMembers_succ (f : Nat) (cs : List Char) :
    parseMembers (f + 1) cs =
      (match skipWs cs with
       | [] => none
       | c0 :: r0 =>
         if c0 = '"' then
           match parseStr r0 with
           | some (kcs, r1) =>
             (match skipWs r1 with
              | [] => none
              | c1 :: r2 =>
                if c1 = ':' then
                  match parseVal f r2 with
                  | some (v, r3) =>
                    (match skipWs r3 with
                     | [] => none
                     | c3 :: r4 =>
                       if c3 = ',' then
                         match parseMembers f r4 with
                         | some (kvs, r5) => some (addMember (String.mk kcs) v kvs, r5)
                         | none => none
                       else if c3 = '}' then some ([(String.mk kcs, v)], r4)
                       else none)
                  | none => none
                else none)
           | none => none
         else none) := rfl

/-- Every value the parser produces is canonical: each object in the tree is
duplicate-free (stated jointly for values, element lists and member lists). -/
theorem parseCanon (fuel : Nat) :
    (∀ cs v r, parseVal fuel cs = some (v, r) → canonJson v = true) ∧
    (∀ cs vs r, parseElems fuel cs = some (vs, r) → canonElems vs = true) ∧
    (∀ cs kvs r, parseMembers fuel cs = some (kvs, r) →
       canonMembers kvs = true ∧ noDupKeys kvs = true) := by
  induction fuel with
  | zero =>
    refine ⟨?_, ?_, ?_⟩
    · intro cs v r h
      rw [show parseVal 0 cs = none from rfl] at h
      simp at h
    · intro cs vs r h
      rw [show parseElems 0 cs = none from rfl] at h
      simp at h
    · intro cs kvs r h
      rw [show parseMembers 0 cs = none from rfl] at h
      simp at h
  | succ f ih =>
    obtain ⟨ihV, ihE, ihM⟩ := ih
    refine ⟨?_, ?_, ?_⟩
    · intro cs v r h
      rw [parseVal_succ] at h
      split at h
      · simp at h
      · split at h
        · split at h
          · split at h
            · simp only [Option.some.injEq, Prod.mk.injEq] at h
              obtain ⟨hv, -⟩ := h
              subst hv
              simp [canonJson]
            · simp at h
          · simp at h
        · split at h
          · split at h
            · split at h
              · simp only [Option.some.injEq, Prod.mk.injEq] at h
                obtain ⟨hv, -⟩ := h
                subst hv
                simp [canonJson]
              · simp at h
            · simp at h
          · split at h
            · split at h
              · split at h
                · simp only [Option.some.injEq, Prod.mk.injEq] at h
                  obtain ⟨hv, -⟩ := h
                  subst hv
                  simp [canonJson]
                · simp at h
              · simp at h
            · split at h
              · split at h
                · rename_i s r1 heq
                  simp only [Option.some.injEq, Prod.mk.injEq] at h
                  obtain ⟨hv, -⟩ := h
                  subst hv
                  simp [canonJson]
                · simp at h
              · split at h
                · split at h
                  · simp at h
                  · split at h
                    · simp only [Option.some.injEq, Prod.mk.injEq] at h
                      obtain ⟨hv, -⟩ := h
                      subst hv
                      simp [canonJson, canonElems]
                    · split at h
                      · rename_i vs r3 heq
                        simp only [Option.some.injEq, Prod.mk.injEq] at h
                        obtain ⟨hv, -⟩ := h
                        subst hv
                        have hc := ihE _ _ _ heq
                        simp [canonJson, hc]
                      · simp at h
                · split at h
                  · split at h
                    · simp at h
                    · split at h
                      · simp only [Option.some.injEq, Prod.mk.injEq] at h
                        obtain ⟨hv, -⟩ := h
                        subst hv
                        simp [canonJson, noDupKeys, canonMembers]
                      · split at h
                        · rename_i kvs r3 heq
                          simp only [Option.some.injEq, Prod.mk.injEq] at h
                          obtain ⟨hv, -⟩ := h
                          subst hv
                          have hc := ihM _ _ _ heq
                          simp [canonJson, hc.1, hc.2]
                        · simp at h
                  · obtain ⟨i, hi⟩ := parseNum_shape _ _ _ h
                    subst hi
                    simp [canonJson]
    · intro cs vs r h
      rw [parseElems_eq] at h
      split at h
      · rename_i v1 r1 heqV
        split at h
        · simp at h
        · split at h
          · split at h
            · rename_i vs2 r3 heqE
              simp only [Option.some.injEq, Prod.mk.injEq] at h
              obtain ⟨hv, -⟩ := h
              subst hv
              have h1 := ihV _ _ _ heqV
              have h2 := ihE _ _ _ heqE
              simp [canonElems, h1, h2]
            · simp at h
          · split at h
            · simp only [Option.some.injEq, Prod.mk.injEq] at h
              obtain ⟨hv, -⟩ := h
              subst hv
              have h1 := ihV _ _ _ heqV
              simp [canonElems, h1]
            · simp at h
      · simp at h
    · intro cs kvs r h
      rw [parseMembers_succ] at h
      split at h
      · simp at h
      · split at h
        · split at h
          · rename_i kcs r1 heqS
            split at h
            · simp at h
            · split at h
              · split at h
                · rename_i v1 r3 heqV
                  split at h
                  · simp at h
                  · split at h
                    · split at h
                      · rename_i kvs2 r5 heqM
                        simp only [Option.some.injEq, Prod.mk.injEq] at h
                        obtain ⟨hv, -⟩ := h
                        subst hv
                        have h1 := ihV _ _ _ heqV
                        have h2 := ihM _ _ _ heqM
                        exact canon_addMember (String.mk kcs) v1 kvs2 h1 h2.1 h2.2
                      · simp at h
                    · split at h
                      · simp only [Option.some.injEq, Prod.mk.injEq] at h
                        obtain ⟨hv, -⟩ := h
                        subst hv
                        have h1 := ihV _ _ _ heqV
                        refine ⟨?_, ?_⟩
                        · simp [canonMembers, h1]
                        · simp [noDupKeys, lookupKey]
                      · simp at h
                · simp at h
              · simp at h
          · simp at h
        · simp at h

/-- Canonicity of a parsed document. -/
theorem parseJson_canon (s : String) (v : Json) (h : parseJson s = some v) :
    canonJson v = true := by
  unfold parseJson parseJsonChars at h
  split at h
  · rename_i v0 rest heqV
    split at h
    · simp only [Option.some.injEq] at h
      subst h
      exact (parseCanon _).1 _ _ _ heqV
    · simp at h
  · simp at h

/-! ### The transforms preserve canonicity -/

theorem noDup_setKey (k : String) (w : Json) (l : List (String × Json)) :
    noDupKeys l = true → noDupKeys (setKey k w l) = true := by
  induction l with
  | nil => intro _; simp [setKey, noDupKeys, lookupKey]
  | cons kv rest ih =>
    obtain ⟨q, u⟩ := kv
    intro h
    simp only [noDupKeys, Bool.and_eq_true, Option.isNone_iff_eq_none] at h
    by_cases hq : q = k
    · simp only [setKey, if_pos hq, noDupKeys, Bool.and_eq_true,
        Option.isNone_iff_eq_none]
      exact ⟨h.1, h.2⟩
    · simp only [setKey, if_neg hq, noDupKeys, Bool.and_eq_true,
        Option.isNone_iff_eq_none]
      refine ⟨?_, ih h.2⟩
      rw [lookup_setKey_ne k q w rest hq]
      exact h.1

theorem canonMembers_setKey (k : String) (w : Json) (l : List (String × Json)) :
    canonJson w = true → canonMembers l = true → canonMembers (setKey k w l) = true := by
  induction l with
  | nil => intro hw _; simp [setKey, canonMembers, hw]
  | cons kv rest ih =>
    obtain ⟨q, u⟩ := kv
    intro hw h
    simp only [canonMembers, Bool.and_eq_true] at h
    by_cases hq : q = k
    · simp only [setKey, if_pos hq, canonMembers, Bool.and_eq_true]
      exact ⟨hw, h.2⟩
    · simp only [setKey, if_neg hq, canonMembers, Bool.and_eq_true]
      exact ⟨h.1, ih hw h.2⟩

theorem noDup_append_one (k : String) (w : Json) (l : List (String × Json)) :
    lookupKey k l = none → noDupKeys l = true → noDupKeys (l ++ [(k, w)]) = true := by
  induction l with
  | nil => intro _ _; simp [noDupKeys, lookupKey]
  | cons kv rest ih =>
    obtain ⟨q, u⟩ := kv
    intro hl h
    by_cases hq : q = k
    · rw [lookupKey, if_pos hq] at hl
      simp at hl
    · rw [lookupKey, if_neg hq] at hl
      simp only [noDupKeys, Bool.and_eq_true, Option.isNone_iff_eq_none] at h
      simp only [List.cons_append, List.append_eq, noDupKeys, Bool.and_eq_true,
        Option.isNone_iff_eq_none]
      refine ⟨?_, ih hl h.2⟩
      rw [lookup_append, h.1]
      simp [lookupKey, Ne.symm hq]

theorem canonMembers_append (a b : List (String × Json)) :
    canonMembers a = true → canonMembers b = true → canonMembers (a ++ b) = true := by
  induction a with
  | nil => intro _ hb; simpa using hb
  | cons kv rest ih =>
    obtain ⟨q, u⟩ := kv
    intro ha hb
    simp only [canonMembers, Bool.and_eq_true] at ha
    simp only [List.cons_append, canonMembers, Bool.and_eq_true]
    exact ⟨ha.1, ih ha.2 hb⟩

theorem canonJson_patchParams (p : Json) :
    canonJson p = true → canonJson (patchParams p) = true := by
  intro h
  cases p with
  | obj kvs =>
    simp only [canonJson, Bool.and_eq_true] at h
    simp only [patchParams]
    split
    · simp only [canonJson, Bool.and_eq_true]
      exact h
    · rename_i hts
      have ht : lookupKey "type" kvs = none := by
        cases hx : lookupKey "type" kvs with
        | some w => rw [hx] at hts; simp at hts
        | none => rfl
      split
    -- properties already present: append only the type member
      · simp only [canonJson, Bool.and_eq_true]
        exact ⟨noDup_append_one _ _ kvs ht h.1,
          canonMembers_append kvs _ h.2 (by simp [canonMembers, canonJson])⟩
    -- both absent: append type, then properties
      · rename_i hps
        have hp : lookupKey "properties" kvs = none := by
          cases hx : lookupKey "properties" kvs with
          | some w => rw [hx] at hps; simp at hps
          | none => rfl
        have hsplit : kvs ++ [("type", Json.str "object"), ("properties", Json.obj [])]
            = (kvs ++ [("type", Json.str "object")]) ++ [("properties", Json.obj [])] := by
          simp
        simp only [canonJson, Bool.and_eq_true, hsplit]
        refine ⟨?_, ?_⟩
        · apply noDup_append_one
          · rw [lookup_append, hp]
            simp [lookupKey]
          · exact noDup_append_one _ _ kvs ht h.1
        · exact canonMembers_append _ _
            (canonMembers_append kvs _ h.2 (by simp [canonMembers, canonJson]))
            (by simp [canonMembers, canonJson, noDupKeys, lookupKey])
  | null => simpa [patchParams] using h
  | bool b => simpa [patchParams] using h
  | num i => simpa [patchParams] using h
  | str s => simpa [patchParams] using h
  | arr xs => simpa [patchParams] using h

theorem canonJson_patchParamsAt (c : Json) :
    canonJson c = true → canonJson (patchParamsAt c) = true := by
  intro h
  cases c with
  | obj kvs =>
    simp only [patchParamsAt]
    split
    · rename_i p heq
      simp only [canonJson, Bool.and_eq_true] at h
      have hp : canonJson p = true := canonMembers_lookup _ kvs p h.2 heq
      simp only [canonJson, Bool.and_eq_true]
      exact ⟨noDup_setKey _ _ kvs h.1,
        canonMembers_setKey _ _ kvs (canonJson_patchParams p hp) h.2⟩
    · exact h
  | null => simpa [patchParamsAt] using h
  | bool b => simpa [patchParamsAt] using h
  | num i => simpa [patchParamsAt] using h
  | str s => simpa [patchParamsAt] using h
  | arr xs => simpa [patchParamsAt] using h

theorem canonJson_patchTool (t : Json) :
    canonJson t = true → canonJson (patchTool t) = true := by
  intro h
  cases t with
  | obj kvs =>
    simp only [patchTool]
    split
    · rename_i fv heq
      simp only [canonJson, Bool.and_eq_true] at h
      have hf : canonJson fv = true := canonMembers_lookup _ kvs fv h.2 heq
      simp only [canonJson, Bool.and_eq_true]
      exact ⟨noDup_setKey _ _ kvs h.1,
        canonMembers_setKey _ _ kvs (canonJson_patchParamsAt fv hf) h.2⟩
    · exact canonJson_patchParamsAt (.obj kvs) h
  | null => simpa [patchTool] using h
  | bool b => simpa [patchTool] using h
  | num i => simpa [patchTool] using h
  | str s => simpa [patchTool] using h
  | arr xs => simpa [patchTool] using h

theorem canonElems_map_patchTool (ts : List Json) :
    canonElems ts = true → canonElems (ts.map patchTool) = true := by
  induction ts with
  | nil => intro _; simp [canonElems]
  | cons x xs ih =>
    intro h
    simp only [canonElems, Bool.and_eq_true] at h
    simp only [List.map_cons, canonElems, Bool.and_eq_true]
    exact ⟨canonJson_patchTool x h.1, ih h.2⟩

theorem canonJson_patchRequest (v : Json) :
    canonJson v = true → canonJson (patchRequest v) = true := by
  intro h
  cases v with
  | obj kvs =>
    simp only [patchRequest]
    split
    · rename_i ts heq
      simp only [canonJson, Bool.and_eq_true] at h
      have hts : canonJson (.arr ts) = true := canonMembers_lookup _ kvs _ h.2 heq
      have hts' : canonElems ts = true := by simpa [canonJson] using hts
      simp only [canonJson, Bool.and_eq_true]
      refine ⟨noDup_setKey _ _ kvs h.1, canonMembers_setKey _ _ kvs ?_ h.2⟩
      simpa [canonJson] using canonElems_map_patchTool ts hts'
    · exact h
  | null => simpa [patchRequest] using h
  | bool b => simpa [patchRequest] using h
  | num i => simpa [patchRequest] using h
  | str s => simpa [patchRequest] using h
  | arr xs => simpa [patchRequest] using h

theorem canon_patchUsage (ukvs : List (String × Json)) :
    canonMembers ukvs = true → noDupKeys ukvs = true →
    canonMembers (patchUsage ukvs).1 = true ∧ noDupKeys (patchUsage ukvs).1 = true := by
  intro hc hd
  by_cases h1 : (lookupKey "input_tokens_details" ukvs).isSome
  · by_cases h2 : (lookupKey "output_tokens_details" ukvs).isSome
    · have he : (patchUsage ukvs).1 = ukvs := by
        simp [patchUsage, h1, h2]
      rw [he]
      exact ⟨hc, hd⟩
    · have h2' : lookupKey "output_tokens_details" ukvs = none :=
        Option.not_isSome_iff_eq_none.mp h2
      have he : (patchUsage ukvs).1
          = ukvs ++ [("output_tokens_details", Json.obj [("reasoning_tokens", Json.num 0)])] := by
        simp [patchUsage, h1, h2]
      rw [he]
      exact ⟨canonMembers_append _ _ hc
          (by simp [canonMembers, canonJson, noDupKeys, lookupKey]),
        noDup_append_one _ _ _ h2' hd⟩
  · have h1' : lookupKey "input_tokens_details" ukvs = none :=
      Option.not_isSome_iff_eq_none.mp h1
    by_cases h2 : (lookupKey "output_tokens_details"
        (ukvs ++ [("input_tokens_details", Json.obj [("cached_tokens", Json.num 0)])])).isSome
    · have he : (patchUsage ukvs).1
          = ukvs ++ [("input_tokens_details", Json.obj [("cached_tokens", Json.num 0)])] := by
        simp [patchUsage, h1, h2]
      rw [he]
      exact ⟨canonMembers_append _ _ hc
          (by simp [canonMembers, canonJson, noDupKeys, lookupKey]),
        noDup_append_one _ _ _ h1' hd⟩
    · have h2' : lookupKey "output_tokens_details"
          (ukvs ++ [("input_tokens_details", Json.obj [("cached_tokens", Json.num 0)])]) = none :=
        Option.not_isSome_iff_eq_none.mp h2
      have he : (patchUsage ukvs).1
          = (ukvs ++ [("input_tokens_details", Json.obj [("cached_tokens", Json.num 0)])])
            ++ [("output_tokens_details", Json.obj [("reasoning_tokens", Json.num 0)])] := by
        simp [patchUsage, h1, h2]
      rw [he]
      refine ⟨canonMembers_append _ _
          (canonMembers_append _ _ hc
            (by simp [canonMembers, canonJson, noDupKeys, lookupKey]))
          (by simp [canonMembers, canonJson, noDupKeys, lookupKey]), ?_⟩
      exact noDup_append_one _ _ _ h2' (noDup_append_one _ _ _ h1' hd)

theorem canonJson_patchResponse (v : Json) :
    canonJson v = true → canonJson (patchResponse v) = true := by
  intro h
  cases v with
  | obj kvs =>
    simp only [patchResponse]
    split
    · rename_i ukvs heq
      simp only [canonJson, Bool.and_eq_true] at h
      have hu : canonJson (.obj ukvs) = true := canonMembers_lookup _ kvs _ h.2 heq
      have hu' : noDupKeys ukvs = true ∧ canonMembers ukvs = true := by
        simpa [canonJson, Bool.and_eq_true] using hu
      obtain ⟨hpc, hpd⟩ := canon_patchUsage ukvs hu'.2 hu'.1
      simp only [canonJson, Bool.and_eq_true]
      refine ⟨noDup_setKey _ _ kvs h.1, canonMembers_setKey _ _ kvs ?_ h.2⟩
      simp [canonJson, Bool.and_eq_true, hpc, hpd]
    · exact h
  | null => simpa [patchResponse] using h
  | bool b => simpa [patchResponse] using h
  | num i => simpa [patchResponse] using h
  | str s => simpa [patchResponse] using h
  | arr xs => simpa [patchResponse] using h

/-! ### Idempotence of the body transforms (C6) -/

/-- C6: `fix_request_body` and `fix_response_body` are idempotent — for every
input body on which one application succeeds with output `t`, applying the
same function to `t` succeeds and yields `t` again. -/
theorem fixBody_idempotent :
    (∀ s t, fixRequestBody s = some t → fixRequestBody t = some t) ∧
    (∀ s t, fixResponseBody s = some t → fixResponseBody t = some t) := by
  constructor
  · intro s t h
    unfold fixRequestBody at h ⊢
    cases hp : parseJson s with
    | none =>
      rw [hp] at h
      simp at h
    | some v =>
      rw [hp] at h
      simp only [Option.map_some', Option.some.injEq] at h
      subst h
      have hcv : canonJson v = true := parseJson_canon s v hp
      have hct : canonJson (patchRequest v) = true := canonJson_patchRequest v hcv
      rw [parseJson_serToString (patchRequest v) hct]
      simp only [Option.map_some']
      rw [patchRequest_idem]
  · intro s t h
    unfold fixResponseBody at h ⊢
    cases hp : parseJson s with
    | none =>
      rw [hp] at h
      simp at h
    | some v =>
      rw [hp] at h
      simp only [Option.map_some', Option.some.injEq] at h
      subst h
      have hcv : canonJson v = true := parseJson_canon s v hp
      have hct : canonJson (patchResponse v) = true := canonJson_patchResponse v hcv
      rw [parseJson_serToString (patchResponse v) hct]
      simp only [Option.map_some']
      rw [patchResponse_idem]

/-- Witness for C6: a concrete fixed request body and a concrete fixed
response body are both fixpoints of their transforms. -/
theorem fixBody_idempotent_witness :
    fixRequestBody "\x7b\"tools\":[\x7b\"parameters\":\x7b\"type\":\"object\",\"properties\":\x7b\x7d\x7d\x7d]\x7d"
      = some "\x7b\"tools\":[\x7b\"parameters\":\x7b\"type\":\"object\",\"properties\":\x7b\x7d\x7d\x7d]\x7d" ∧
    fixResponseBody "\x7b\"usage\":\x7b\"input_tokens_details\":\x7b\"cached_tokens\":0\x7d,\"output_tokens_details\":\x7b\"reasoning_tokens\":0\x7d\x7d\x7d"
      = some "\x7b\"usage\":\x7b\"input_tokens_details\":\x7b\"cached_tokens\":0\x7d,\"output_tokens_details\":\x7b\"reasoning_tokens\":0\x7d\x7d\x7d" :=
  ⟨fixBody_idempotent.1 "\x7b\"tools\":[\x7b\"parameters\":\x7b\x7d\x7d]\x7d" _ (by rfl),
   fixBody_idempotent.2 "\x7b\"usage\":\x7b\x7d\x7d" _ (by rfl)⟩

end Proxy
